/-
  Verification of the Campus Flow registry core (validators.js, main.js,
  storage.js, search.js, helpers.js) against its natural-language
  specification.

  Modelling conventions, used throughout:
  * JavaScript strings are `List Char`.  The JS values `undefined` and `""`
    are both modelled as `[]`: in every use the source makes of the string
    fields (`data.name || data.title`, `!data.cancelReason`,
    `task.notes || ""`, …) the two are behaviourally identical, because the
    code only ever consumes them through truthiness tests and defaulting.
  * JavaScript numbers that reach the validator are modelled as terminating
    decimals `(m : Int, k : Nat)` denoting `m / 10^k`; `String(x)` is
    modelled as the shortest-decimal rendering (`jsNumToString`), which is
    what JS produces for such values (exponent notation for magnitudes
    outside [1e-6, 1e21) is outside the model).  `NaN` (from a failed
    `parseFloat`) is modelled as `none`, whose rendering fails the duration
    pattern exactly as the strings "NaN"/"undefined" do.
  * Platform regexes used by the Search Engine are opaque: `compileRegex`
    keeps the pattern/flags data and the success of `new RegExp` is an
    environment-supplied boolean (the try/catch structure is modelled
    exactly); `filterTasks` receives the engine's `test` capability as a
    function argument.  The validator's own four regexes are small enough to
    be translated into executable predicates, each derived next to its
    definition.
-/
import Mathlib

set_option maxHeartbeats 1000000
set_option linter.unusedVariables false
set_option linter.unnecessarySimpa false

/-! ## Character classes (JS semantics) -/

/-- The JS `\s` class (WhiteSpace ∪ LineTerminator), by code point. -/
def jsIsSpace (c : Char) : Bool :=
  let n := c.toNat
  n = 32 || n = 9 || n = 10 || n = 11 || n = 12 || n = 13 ||
  n = 0xA0 || n = 0x1680 || (decide (0x2000 ≤ n) && decide (n ≤ 0x200A)) ||
  n = 0x2028 || n = 0x2029 || n = 0x202F || n = 0x205F || n = 0x3000 || n = 0xFEFF

/-- JS line terminators: LF, CR, LS, PS.  `.` (without the `s` flag) matches
    every character except these. -/
def isLineTerm (c : Char) : Bool :=
  let n := c.toNat
  n = 10 || n = 13 || n = 0x2028 || n = 0x2029

/-- The JS `.` metacharacter (no `s` flag): any char except a line terminator. -/
def jsDotChar (c : Char) : Bool := !isLineTerm c

/-- An ASCII decimal digit (the JS `\d` class). -/
def isDigitCh (c : Char) : Bool := decide (48 ≤ c.toNat) && decide (c.toNat ≤ 57)

/-- The JS `\w` class: ASCII letters, digits, and underscore. -/
def wordChar (c : Char) : Bool :=
  (decide (97 ≤ c.toNat) && decide (c.toNat ≤ 122)) ||
  (decide (65 ≤ c.toNat) && decide (c.toNat ≤ 90)) ||
  (decide (48 ≤ c.toNat) && decide (c.toNat ≤ 57)) ||
  c.toNat = 95

/-- Case canonicalization on code points for the regex `i` flag: upper-case
    ASCII letters map to lower case (titles are ASCII; full Unicode simple
    case folding is not needed by any rule). -/
def foldN (n : Nat) : Nat := if 65 ≤ n ∧ n ≤ 90 then n + 32 else n

/-- Whole-text case-insensitive equality, as used by a back-reference under
    the `i` flag. -/
def foldEqL (v w : List Char) : Bool :=
  v.map (fun c => foldN c.toNat) == w.map (fun c => foldN c.toNat)

/-- JS `String.prototype.trim`: strip `\s` characters from both ends. -/
def jsTrim (s : List Char) : List Char :=
  ((s.dropWhile jsIsSpace).reverse.dropWhile jsIsSpace).reverse

/-! ## Decimal rendering of numbers (JS `String(number)` for terminating
    decimals) -/

/-- The character of the decimal digit `n` (for `n < 10`). -/
def digitChar (n : Nat) : Char := Char.ofNat (48 + n)

/-- Fuel-driven digit expansion, most significant digit first.  Structural on
    the fuel so that it evaluates by kernel reduction. -/
def natDigitsF : Nat → Nat → List Char
  | 0, _ => []
  | fuel + 1, n =>
    if n < 10 then [digitChar n]
    else natDigitsF fuel (n / 10) ++ [digitChar (n % 10)]

/-- Decimal digits of `n`, most significant first (no leading zeros; `0`
    renders as "0"). -/
def natDigits (n : Nat) : List Char := natDigitsF (n + 1) n

/-- Numeric value of a digit string (the standard left fold). -/
def digitsToNat (ds : List Char) : Nat :=
  ds.foldl (fun a c => a * 10 + (c.toNat - 48)) 0

/-- Strip trailing decimal zeros: the canonical form of the value `m / 10^k`.
    The result `(m', k')` has `k' = 0` or `m' % 10 ≠ 0`, and denotes the same
    rational.  JS number-to-string always prints this canonical form. -/
def reduceDec : Int → Nat → Int × Nat
  | m, 0 => (m, 0)
  | m, k + 1 => if m % 10 = 0 then reduceDec (m / 10) k else (m, k + 1)

/-- Left-pad a digit string with zeros to width `k`. -/
def zeroPad (k : Nat) (ds : List Char) : List Char :=
  List.replicate (k - ds.length) '0' ++ ds

/-- Plain decimal rendering of the non-negative value `n / 10^k`:
    integer part, then (for `k > 0`) a point and exactly `k` fraction
    digits. -/
def decRenderN (n : Nat) (k : Nat) : List Char :=
  if k = 0 then natDigits n
  else natDigits (n / 10 ^ k) ++ '.' :: zeroPad k (natDigits (n % 10 ^ k))

/-- Plain decimal rendering of `m / 10^k` (minus sign for negatives). -/
def decRender (m : Int) (k : Nat) : List Char :=
  if m < 0 then '-' :: decRenderN m.natAbs k else decRenderN m.natAbs k

/-- Strip trailing zero digits: the shortest mantissa of the JS
    number-to-string algorithm. -/
def stripTZ (ds : List Char) : List Char :=
  (ds.reverse.dropWhile (fun c => c = '0')).reverse

/-- The mantissa of exponent notation: one digit, then a point and the
    remaining digits when there are any. -/
def expDigits : List Char → List Char
  | [] => ['0']
  | d :: dtl => d :: (if dtl.isEmpty then [] else '.' :: dtl)

/-- The exponent suffix of exponent notation: an explicit sign and the
    decimal exponent (`1e+21`, `1e-7`). -/
def expSuffix (e : Int) : List Char :=
  if 0 ≤ e then '+' :: natDigits e.natAbs else '-' :: natDigits e.natAbs

/-- Exponent notation for the value `m / 10^k`, as the JS number-to-string
    algorithm produces it: sign, shortest mantissa digits with the point
    after the first one, explicit exponent sign. -/
def expRender (m : Int) (k : Nat) : List Char :=
  (if m < 0 then ['-'] else []) ++
    (expDigits (stripTZ (natDigits m.natAbs)) ++
      'e' :: expSuffix (((natDigits m.natAbs).length : Int) - k - 1))

/-- The notation test of the JS number-to-string algorithm: with `n` the
    position of the decimal point (the value is `s · 10^(n - len)` for the
    `len`-digit mantissa `s`), positional notation is used for
    `-6 < n ≤ 21` and exponent notation otherwise (zero is always
    positional). -/
def jsExpNeeded (m : Int) (k : Nat) : Bool :=
  !(m = 0) &&
  (decide (21 < ((natDigits m.natAbs).length : Int) - k) ||
   decide (((natDigits m.natAbs).length : Int) - k ≤ -6))

/-- The JS `String(x)` of the validator's duration input: `none` models a
    `NaN` (failed `parseFloat`) whose rendering fails the duration pattern
    exactly as the real "NaN" text does; a number renders from its canonical
    (trailing-zero-free) decimal form, in plain positional notation within
    the positional range and in exponent notation outside it (`String(1e21)`
    is `"1e+21"`). -/
def jsNumToString : Option (Int × Nat) → List Char
  | none => "NaN".data
  | some (m, k) =>
    if jsExpNeeded (reduceDec m k).1 (reduceDec m k).2 then
      expRender (reduceDec m k).1 (reduceDec m k).2
    else decRender (reduceDec m k).1 (reduceDec m k).2

/-! ## The validator's regex patterns, as executable predicates -/

/-- The final `\S` of the title pattern, applied to the last character when
    there is one. -/
def titleLastOk : Option Char → Bool
  | none => true
  | some d => !jsIsSpace d

/-- `Validators.patterns.title = /^\S(?:.*\S)?$/`.  The pattern is anchored,
    so a match forces: a non-space first character, and (when the string has
    length ≥ 2) a non-space last character with every character in between
    matched by `.` (hence no line terminator); on a one-character string the
    optional group matches the empty string. -/
def titleTest : List Char → Bool
  | [] => false
  | c :: rest =>
    !jsIsSpace c &&
    (rest.isEmpty || (titleLastOk rest.getLast? && rest.dropLast.all jsDotChar))

/-- Integer-part alternative `(0|[1-9]\d*)` of the duration pattern. -/
def durIntOk : List Char → Bool
  | [] => false
  | c :: rest =>
    (c = '0' && rest = []) ||
    (decide (49 ≤ c.toNat) && decide (c.toNat ≤ 57) && rest.all isDigitCh)

/-- Optional fraction alternative `(\.(25|5|75|0|00))?` of the duration
    pattern. -/
def durFracOk (fp : List Char) : Bool :=
  fp == [] || fp == ['.', '2', '5'] || fp == ['.', '5'] ||
  fp == ['.', '7', '5'] || fp == ['.', '0'] || fp == ['.', '0', '0']

/-- `Validators.patterns.duration = /^(0|[1-9]\d*)(\.(25|5|75|0|00))?$/`.
    Anchoring forces the split at the first `.`: the integer alternative
    contains no `.` and the fraction alternative starts with one, so the
    pattern matches exactly when the prefix before the first `.` matches the
    integer part and the remainder is one of the fraction alternatives. -/
def durationTest (s : List Char) : Bool :=
  durIntOk (s.takeWhile (fun c => !(c = '.'))) &&
  durFracOk (s.dropWhile (fun c => !(c = '.')))

/-- `Validators.patterns.date = /^\d{4}-(0[1-9]|1[0-2])-(0[1-9]|[12]\d|3[01])$/`:
    exactly ten characters, four digits, a dash, a month `01`–`12`, a dash,
    and a day `01`–`31`. -/
def dateTest : List Char → Bool
  | [y1, y2, y3, y4, h1, m1, m2, h2, d1, d2] =>
    isDigitCh y1 && isDigitCh y2 && isDigitCh y3 && isDigitCh y4 &&
    h1 = '-' && h2 = '-' &&
    ((m1 = '0' && decide (49 ≤ m2.toNat) && decide (m2.toNat ≤ 57)) ||
     (m1 = '1' && decide (48 ≤ m2.toNat) && decide (m2.toNat ≤ 50))) &&
    ((d1 = '0' && decide (49 ≤ d2.toNat) && decide (d2.toNat ≤ 57)) ||
     ((d1 = '1' || d1 = '2') && isDigitCh d2) ||
     (d1 = '3' && (d2 = '0' || d2 = '1')))
  | _ => false

/-- Word boundary on the left of a word character: start of input, or a
    preceding non-word character. -/
def bBefore : Option Char → Bool
  | none => true
  | some p => !wordChar p

/-- Word boundary after a back-reference: end of input, or a following
    non-word character. -/
def bAfter : List Char → Bool
  | [] => true
  | c :: _ => !wordChar c

/-- One attempt of `\b(\w+)\s+\1\b` at a fixed start position (the boundary
    before the start is checked by the caller).  Because the capture `(\w+)`
    is followed by `\s+`, backtracking cannot shorten it below the maximal
    word-character run (any shorter capture would be followed by a word
    character, not whitespace); likewise `\s+` must be the maximal whitespace
    run because the back-reference starts with a word character.  So the
    greedy runs below are the only candidates the engine can accept. -/
def tryDupAt (s : List Char) : Bool :=
  let w := s.takeWhile wordChar
  let r1 := s.dropWhile wordChar
  let sp := r1.takeWhile jsIsSpace
  let r2 := r1.dropWhile jsIsSpace
  !w.isEmpty && !sp.isEmpty && foldEqL (r2.take w.length) w &&
  bAfter (r2.drop w.length)

/-- Scan of `\b(\w+)\s+\1\b` over every start position, threading the
    previous character for the `\b` test. -/
def dupScan : Option Char → List Char → Bool
  | _, [] => false
  | prev, c :: rest => (bBefore prev && tryDupAt (c :: rest)) || dupScan (some c) rest

/-- `Validators.patterns.duplicateWords = /\b(\w+)\s+\1\b/i`: some start
    position admits a bounded word, whitespace, and a case-insensitive copy
    of the word ending at a boundary. -/
def duplicateWordsTest (s : List Char) : Bool := dupScan none s

/-! ## Data model -/

/-- A task / form record.  String fields follow the `[] = empty or absent`
    convention; `duration` is the number produced by `parseFloat`
    (`none` = NaN). -/
structure TaskRec where
  id : List Char := []
  name : List Char := []
  title : List Char := []
  date : List Char := []
  time : List Char := []
  category : List Char := []
  duration : Option (Int × Nat) := none
  status : List Char := []
  urgent : Bool := false
  cancelReason : List Char := []
  notes : List Char := []
  createdAt : List Char := []
  updatedAt : List Char := []
deriving DecidableEq, Repr

/-- The error mapping returned by `validateTask`: one optional message per
    field, `none` everywhere ⇔ the JS object has no keys. -/
structure Errors where
  title : Option (List Char) := none
  duration : Option (List Char) := none
  date : Option (List Char) := none
  cancelReason : Option (List Char) := none
deriving DecidableEq, Repr

/-- `Object.keys(errors).length > 0` is false: every field is absent. -/
def Errors.isEmpty (e : Errors) : Bool :=
  e.title = none && e.duration = none && e.date = none && e.cancelReason = none

namespace Validators

/-- Message of the title presence rule. -/
def titleRequiredMsg : List Char := "Activity title is required.".data

/-- Message of the title whitespace rule. -/
def titlePaddingMsg : List Char := "Title cannot have leading or trailing spaces.".data

/-- Message of the duplicate-word rule. -/
def titleDupMsg : List Char := "Duplicate words detected. Please refine the title.".data

/-- Message of the duration rule. -/
def durationMsg : List Char := "Duration must be in 0.25 (15 min) increments.".data

/-- Message of the date rule. -/
def dateMsg : List Char := "Please provide a valid date (YYYY-MM-DD).".data

/-- Message of the cancellation justification rule. -/
def cancelMsg : List Char := "A justification is required for registry deviations.".data

/-- The title the validator actually checks: `data.name || data.title`
    (`name` when truthy, else `title`). -/
def activityTitleOf (data : TaskRec) : List Char :=
  if data.name = [] then data.title else data.name

/-- `Validators.validateTask`, rule for rule.  The title rules are an
    `else if` chain (first failure per field wins); duration, date and
    cancellation are independent fields. -/
def validateTask (data : TaskRec) : Errors :=
  let activityTitle := activityTitleOf data
  let titleErr :=
    if activityTitle = [] || jsTrim activityTitle = [] then some titleRequiredMsg
    else if !titleTest activityTitle then some titlePaddingMsg
    else if duplicateWordsTest activityTitle then some titleDupMsg
    else none
  let durationErr :=
    if !durationTest (jsNumToString data.duration) then some durationMsg else none
  let dateErr := if !dateTest data.date then some dateMsg else none
  let cancelErr :=
    if data.status = "canceled".data then
      if data.cancelReason = [] || (jsTrim data.cancelReason).length < 5 then
        some cancelMsg
      else none
    else none
  { title := titleErr, duration := durationErr, date := dateErr,
    cancelReason := cancelErr }

end Validators

/-! ## Registry State (`App.handleSave` in main.js) -/

/-- The values `handleSave` reads from the activity form.  `taskId` is the
    hidden `task-id` field (`[]` when creating); `duration` is the
    `parseFloat` of the duration input (`none` = NaN). -/
structure FormData where
  taskId : List Char := []
  title : List Char := []
  date : List Char := []
  category : List Char := []
  time : List Char := []
  duration : Option (Int × Nat) := none
  status : List Char := []
  urgent : Bool := false
  cancelReason : List Char := []
  notes : List Char := []
deriving DecidableEq, Repr

/-- Outcome of one `handleSave` call: the resulting task collection, whether
    `Storage.save` ran, and the validation error mapping surfaced by the
    `alert` (if any). -/
structure SaveResult where
  tasks : List TaskRec
  persisted : Bool
  error : Option Errors
deriving DecidableEq, Repr

namespace App

/-- The candidate record `handleSave` assembles from the form:
    `id = taskId || generateId()`, `time = value || "09:00"`, a fresh
    `updatedAt`; `createdAt` is stamped later, only on the create path. -/
def buildFormData (form : FormData) (freshId now : List Char) : TaskRec :=
  { id := if form.taskId = [] then freshId else form.taskId,
    title := form.title,
    date := form.date,
    category := form.category,
    time := if form.time = [] then "09:00".data else form.time,
    duration := form.duration,
    status := form.status,
    urgent := form.urgent,
    cancelReason := form.cancelReason,
    notes := form.notes,
    updatedAt := now }

/-- The update-path merge `{...State.tasks[idx], ...data}`: `data` carries
    every field except `name` and `createdAt`, so exactly those survive from
    the stored record. -/
def mergeTask (old data : TaskRec) : TaskRec :=
  { data with name := old.name, createdAt := old.createdAt }

/-- `App.handleSave`: validate, bail out on errors (alert, no mutation, no
    save); otherwise update in place (by `findIndex`) or append with a fresh
    `createdAt`, then persist.  When `findIndex` misses (idx = -1) the JS
    assignment `State.tasks[-1] = …` creates a stray non-index property on
    the array object: the array's elements and length are unchanged and
    `JSON.stringify` ignores the stray key, so the collection is modelled as
    unchanged — and no error of any kind is raised. -/
def handleSave (tasks : List TaskRec) (form : FormData) (freshId now : List Char) :
    SaveResult :=
  let data := buildFormData form freshId now
  let errors := Validators.validateTask data
  if !errors.isEmpty then
    { tasks := tasks, persisted := false, error := some errors }
  else if !(form.taskId = []) then
    match tasks.findIdx? (fun t => t.id = form.taskId) with
    | some i =>
      { tasks := tasks.set i (mergeTask (tasks.getD i {}) data),
        persisted := true, error := none }
    | none => { tasks := tasks, persisted := true, error := none }
  else
    { tasks := tasks ++ [{ data with createdAt := now }],
      persisted := true, error := none }

end App

/-! ## Search Engine (search.js) -/

/-- The data a successfully constructed `RegExp` carries.  Its matching
    behaviour lives in the platform engine and enters `filterTasks` as a
    `test` capability. -/
structure CompiledRegex where
  source : List Char
  flags : List Char
deriving DecidableEq, Repr

namespace SearchEngine

/-- `SearchEngine.compileRegex`: blank patterns compile to `null`; otherwise
    `new RegExp(pattern, flags)` either succeeds (`syntaxOk = true`) or
    throws and the catch returns `null` (`syntaxOk = false`).  Whether a
    pattern is syntactically valid is an environment fact, passed in as
    `syntaxOk`; the function itself is total, mirroring the try/catch that
    prevents any exception from escaping. -/
def compileRegex (pattern : List Char) (caseInsensitive : Bool) (syntaxOk : Bool) :
    Option CompiledRegex :=
  if pattern = [] then none
  else if jsTrim pattern = [] then none
  else if syntaxOk then
    some { source := pattern,
           flags := if caseInsensitive then "gi".data else "g".data }
  else none

/-- The first joined field of the searchable text:
    `task.title || task.name || ""`. -/
def displayTitle (t : TaskRec) : List Char :=
  if t.title = [] then t.name else t.title

/-- The synthetic searchable text: title-or-name, category, notes, cancel
    reason, joined with single spaces (missing fields contribute `""`). -/
def contentOf (t : TaskRec) : List Char :=
  displayTitle t ++ ' ' :: t.category ++ ' ' :: t.notes ++ ' ' :: t.cancelReason

/-- `SearchEngine.filterTasks`: a `null` regex filters nothing; otherwise keep
    the tasks whose searchable text the engine's `test` accepts.  The
    `regex.lastIndex = 0` reset before each `test` makes the global regex
    stateless across records, which is what passing a pure `test` function
    models. -/
def filterTasks (tasks : List TaskRec) (regex : Option CompiledRegex)
    (test : CompiledRegex → List Char → Bool) : List TaskRec :=
  match regex with
  | none => tasks
  | some r => tasks.filter (fun t => test r (contentOf t))

end SearchEngine

/-! ## Helpers (helpers.js) -/

/-- A settings category: id, display label, color token and `work`/`life`
    type tag (`[]` models a missing `type`). -/
structure Category where
  id : List Char := []
  label : List Char := []
  color : List Char := []
  type : List Char := []
deriving DecidableEq, Repr

/-- The numeric value of a task's duration (`0` stands in for the impossible
    missing case; the balance theorems require durations to be present, since
    in JS a missing duration would poison the sums with NaN). -/
def durQ : Option (Int × Nat) → ℚ
  | none => 0
  | some (m, k) => (m : ℚ) / 10 ^ k

/-- The aggregate `calculateBalance` returns.  `workHrs`/`lifeHrs` keep the
    numeric sums (the JS `toFixed(1)` display formatting is presentation
    only). -/
structure Balance where
  workPerc : ℚ
  lifePerc : ℚ
  workHrs : ℚ
  lifeHrs : ℚ
deriving DecidableEq, Repr

namespace Helpers

/-- Category lookup for the balance metric: match by id or by label. -/
def matchedCat (categories : List Category) (t : TaskRec) : Option Category :=
  categories.find? (fun c => c.id = t.category || c.label = t.category)

/-- One step of the `tasks.forEach` accumulation in `calculateBalance`:
    `stats[cat.type || 'work'] += t.duration`.  A type tag other than
    `work`/`life` writes a stray object property and leaves both tracked
    buckets unchanged. -/
def calcStep (categories : List Category) (st : ℚ × ℚ) (t : TaskRec) : ℚ × ℚ :=
  match matchedCat categories t with
  | some cat =>
    let ty := if cat.type = [] then "work".data else cat.type
    if ty = "work".data then (st.1 + durQ t.duration, st.2)
    else if ty = "life".data then (st.1, st.2 + durQ t.duration)
    else st
  | none => st

/-- `Helpers.calculateBalance`: fold the per-category sums, then
    `total = stats.work + stats.life || 1` — the `|| 1` replaces exactly the
    falsy total `0`, and nothing else — and convert to percentages. -/
def calculateBalance (tasks : List TaskRec) (categories : List Category) : Balance :=
  let stats := tasks.foldl (calcStep categories) (0, 0)
  let total := if stats.1 + stats.2 = 0 then 1 else stats.1 + stats.2
  { workPerc := stats.1 / total * 100,
    lifePerc := stats.2 / total * 100,
    workHrs := stats.1,
    lifeHrs := stats.2 }

end Helpers

/-! ## Persistence Gateway (storage.js): JSON values, `JSON.stringify(·, null, 2)`
    and `JSON.parse` -/

mutual

/-- A JSON value.  Numbers are terminating decimals `m / 10^k` (JS doubles;
    `JSON.stringify` prints their canonical shortest-decimal form, switching
    to exponent notation exactly where `Number::toString` does).  Arrays and
    objects use mutually inductive list types so that all recursion over
    values is structural. -/
inductive Json where
  | null
  | bool (b : Bool)
  | num (m : Int) (k : Nat)
  | str (s : List Char)
  | arr (xs : JsonList)
  | obj (fs : JsonFields)
deriving DecidableEq, Repr

/-- The element list of a JSON array. -/
inductive JsonList where
  | nil
  | cons (hd : Json) (tl : JsonList)
deriving DecidableEq, Repr

/-- The member list of a JSON object (duplicate keys may occur in parsed
    text; `JSON.parse` keeps the last one, which is what `jsGetLast`
    implements). -/
inductive JsonFields where
  | nil
  | cons (key : List Char) (val : Json) (tl : JsonFields)
deriving DecidableEq, Repr

end

/-- Lowercase hexadecimal digit character (for `\u00xy` escapes). -/
def hexDig (n : Nat) : Char := if n < 10 then digitChar n else Char.ofNat (87 + n)

/-- JSON string escaping as `JSON.stringify` performs it: quote, backslash
    and the named control escapes, `\u00xy` for other control characters,
    everything else verbatim. -/
def escapeChar (c : Char) : List Char :=
  if c = '"' then ['\\', '"']
  else if c = '\\' then ['\\', '\\']
  else if c = '\x08' then ['\\', 'b']
  else if c = '\x0c' then ['\\', 'f']
  else if c = '\n' then ['\\', 'n']
  else if c = '\r' then ['\\', 'r']
  else if c = '\t' then ['\\', 't']
  else if c.toNat < 32 then
    ['\\', 'u', '0', '0', hexDig (c.toNat / 16), hexDig (c.toNat % 16)]
  else [c]

/-- Escape a whole string body. -/
def escapeStr (s : List Char) : List Char :=
  s.foldr (fun c acc => escapeChar c ++ acc) []

/-- A quoted, escaped JSON string literal. -/
def quoteStr (s : List Char) : List Char := '"' :: (escapeStr s ++ ['"'])

/-- An indentation run of `n` spaces. -/
def indSp (n : Nat) : List Char := List.replicate n ' '

mutual

/-- `JSON.stringify(v, null, 2)` at enclosing indentation `ind`: scalars
    inline; a non-empty array/object opens its bracket, puts every child on
    its own line indented by `ind + 2`, separates children with `",\n"`, and
    closes the bracket on a line indented by `ind`. -/
def Json.render (ind : Nat) : Json → List Char
  | .null => "null".data
  | .bool true => "true".data
  | .bool false => "false".data
  | .num m k => jsNumToString (some (m, k))
  | .str s => quoteStr s
  | .arr .nil => "[]".data
  | .arr (.cons x xs) =>
    '[' :: '\n' :: (Json.renderItems (ind + 2) x xs ++ '\n' :: (indSp ind ++ [']']))
  | .obj .nil => "\x7b\x7d".data
  | .obj (.cons key v fs) =>
    '\x7b' :: '\n' ::
      (Json.renderFields (ind + 2) key v fs ++ '\n' :: (indSp ind ++ ['\x7d']))
termination_by j => sizeOf j

/-- The lines of a non-empty array body (no trailing newline). -/
def Json.renderItems (ind : Nat) (x : Json) (xs : JsonList) : List Char :=
  indSp ind ++ Json.render ind x ++
    (match xs with
     | .nil => []
     | .cons y ys => ',' :: '\n' :: Json.renderItems ind y ys)
termination_by sizeOf (JsonList.cons x xs)

/-- The lines of a non-empty object body (`"key": value`, no trailing
    newline). -/
def Json.renderFields (ind : Nat) (key : List Char) (v : Json) (fs : JsonFields) :
    List Char :=
  indSp ind ++ quoteStr key ++ ':' :: ' ' :: Json.render ind v ++
    (match fs with
     | .nil => []
     | .cons k2 v2 gs => ',' :: '\n' :: Json.renderFields ind k2 v2 gs)
termination_by sizeOf (JsonFields.cons key v fs)

end

/-- JSON whitespace (the only characters `JSON.parse` skips between
    tokens). -/
def jsonWs (c : Char) : Bool := c = ' ' || c = '\n' || c = '\r' || c = '\t'

/-- Skip JSON whitespace. -/
def skipJWs (s : List Char) : List Char := s.dropWhile jsonWs

/-- Value of one hexadecimal digit character. -/
def hexVal (c : Char) : Option Nat :=
  if isDigitCh c then some (c.toNat - 48)
  else if decide (97 ≤ c.toNat) && decide (c.toNat ≤ 102) then some (c.toNat - 87)
  else if decide (65 ≤ c.toNat) && decide (c.toNat ≤ 70) then some (c.toNat - 55)
  else none

/-- The single-character JSON escapes. -/
def unescape : Char → Option Char
  | '"' => some '"'
  | '\\' => some '\\'
  | '/' => some '/'
  | 'b' => some '\x08'
  | 'f' => some '\x0c'
  | 'n' => some '\n'
  | 'r' => some '\r'
  | 't' => some '\t'
  | _ => none

/-- Parse a string body after the opening quote, up to and including the
    closing quote.  Unescaped control characters are rejected, as in real
    JSON; every four-hex-digit `\uXXXX` is accepted, as in real JSON.  A
    high-surrogate escape followed by a low-surrogate escape yields the
    combined code point, as the code-unit string JSON.parse builds reads
    back.  A surrogate escape left unpaired stands for the one JS string
    shape a scalar-value character cannot carry; the model renders it (and
    each escape of a high-surrogate run) as U+FFFD.  This value abstraction
    never changes which texts parse, only how unpaired code units are
    displayed.  The fuel only ensures totality: every step consumes at least
    one input character, so one unit of fuel per remaining character is
    always enough, and callers pass exactly that. -/
def parseStrBody : Nat → List Char → Option (List Char × List Char)
  | 0, _ => none
  | _ + 1, [] => none
  | f + 1, c :: rest =>
    if c = '"' then some ([], rest)
    else if c = '\\' then
      match rest with
      | 'u' :: a :: b :: c2 :: d :: rest2 =>
        (match hexVal a, hexVal b, hexVal c2, hexVal d with
         | some va, some vb, some vc, some vd =>
           let n := ((va * 16 + vb) * 16 + vc) * 16 + vd
           if n < 55296 ∨ 57344 ≤ n then
             (parseStrBody f rest2).map (fun p => (Char.ofNat n :: p.1, p.2))
           else if n < 56320 then
             match rest2 with
             | '\\' :: 'u' :: a2 :: b2 :: c3 :: d2 :: rest3 =>
               (match hexVal a2, hexVal b2, hexVal c3, hexVal d2 with
                | some wa, some wb, some wc, some wd =>
                  let n2 := ((wa * 16 + wb) * 16 + wc) * 16 + wd
                  if 56320 ≤ n2 ∧ n2 < 57344 then
                    (parseStrBody f rest3).map (fun p =>
                      (Char.ofNat (65536 + (n - 55296) * 1024 + (n2 - 56320))
                        :: p.1, p.2))
                  else if n2 < 55296 ∨ 57344 ≤ n2 then
                    (parseStrBody f rest3).map (fun p =>
                      (Char.ofNat 65533 :: Char.ofNat n2 :: p.1, p.2))
                  else
                    (parseStrBody f rest3).map (fun p =>
                      (Char.ofNat 65533 :: Char.ofNat 65533 :: p.1, p.2))
                | _, _, _, _ => none)
             | _ =>
               (parseStrBody f rest2).map (fun p => (Char.ofNat 65533 :: p.1, p.2))
           else
             (parseStrBody f rest2).map (fun p => (Char.ofNat 65533 :: p.1, p.2))
         | _, _, _, _ => none)
      | e :: rest2 =>
        (match unescape e with
         | some ch => (parseStrBody f rest2).map (fun p => (ch :: p.1, p.2))
         | none => none)
      | [] => none
    else if c.toNat < 32 then none
    else (parseStrBody f rest).map (fun p => (c :: p.1, p.2))

/-- The optional fraction of a JSON number: a point and one-or-more digits,
    scaled onto the integer part `m`; anything else ends the number. -/
def parseFrac (m : Nat) : List Char → Option ((Nat × Nat) × List Char)
  | [] => some ((m, 0), [])
  | c :: r2 =>
    if c = '.' then
      let fs := r2.takeWhile isDigitCh
      if fs.isEmpty then none
      else some ((m * 10 ^ fs.length + digitsToNat fs, fs.length),
                 r2.dropWhile isDigitCh)
    else some ((m, 0), c :: r2)

/-- The JSON integer part: a lone `0`, or a nonzero digit followed by
    digits (JSON rejects leading zeros: after a leading `0` the number
    ends). -/
def parseIntPart : List Char → Option (Nat × List Char)
  | [] => none
  | c :: r =>
    if c = '0' then some (0, r)
    else if isDigitCh c then
      some (digitsToNat ((c :: r).takeWhile isDigitCh),
            (c :: r).dropWhile isDigitCh)
    else none

/-- The optional JSON exponent: `e` or `E`, an optional sign, and
    one-or-more digits; any other continuation leaves the number as is. -/
def parseExpPart : List Char → Option (Int × List Char)
  | [] => some (0, [])
  | c :: r =>
    if c = 'e' || c = 'E' then
      match r with
      | '+' :: r2 =>
        let ds := r2.takeWhile isDigitCh
        if ds.isEmpty then none
        else some ((digitsToNat ds : Int), r2.dropWhile isDigitCh)
      | '-' :: r2 =>
        let ds := r2.takeWhile isDigitCh
        if ds.isEmpty then none
        else some (-(digitsToNat ds : Int), r2.dropWhile isDigitCh)
      | r2 =>
        let ds := r2.takeWhile isDigitCh
        if ds.isEmpty then none
        else some ((digitsToNat ds : Int), r2.dropWhile isDigitCh)
    else some (0, c :: r)

/-- Scale a scanned mantissa `n / 10^k` by `10^e` into a plain decimal pair
    (`JSON.parse` yields the numeric value; the exponent disappears). -/
def applyExp (n : Nat) (k : Nat) (e : Int) : Nat × Nat :=
  if (k : Int) ≤ e then (n * 10 ^ (e - k).toNat, 0)
  else (n, ((k : Int) - e).toNat)

/-- Parse an unsigned JSON number: integer part, optional fraction, optional
    exponent, combined into the pair (scaled integer, fraction length). -/
def parseNumN (s : List Char) : Option ((Nat × Nat) × List Char) :=
  match parseIntPart s with
  | none => none
  | some (n0, r0) =>
    match parseFrac n0 r0 with
    | none => none
    | some (p1, r1) =>
      match parseExpPart r1 with
      | none => none
      | some (e, r2) => some (applyExp p1.1 p1.2 e, r2)

/-- Parse a JSON number (optional minus sign), normalised to canonical form:
    `JSON.parse` produces the numeric value, which the model represents by
    the reduced pair. -/
def parseNum : List Char → Option ((Int × Nat) × List Char)
  | [] => none
  | c :: rest =>
    if c = '-' then
      (parseNumN rest).map (fun p => (reduceDec (-(p.1.1 : Int)) p.1.2, p.2))
    else (parseNumN (c :: rest)).map (fun p => (reduceDec (p.1.1 : Int) p.1.2, p.2))

mutual

/-- Fuel-driven JSON value parsing (the fuel only ensures totality; every
    recursive call passes `fuel` decremented). -/
def parseJ : Nat → List Char → Option (Json × List Char)
  | 0, _ => none
  | fuel + 1, s =>
    match skipJWs s with
    | 'n' :: 'u' :: 'l' :: 'l' :: r => some (.null, r)
    | 't' :: 'r' :: 'u' :: 'e' :: r => some (.bool true, r)
    | 'f' :: 'a' :: 'l' :: 's' :: 'e' :: r => some (.bool false, r)
    | '"' :: r => (parseStrBody (r.length + 1) r).map (fun p => (.str p.1, p.2))
    | '[' :: r =>
      (match skipJWs r with
       | ']' :: r2 => some (.arr .nil, r2)
       | r2 =>
         match parseItems fuel r2 with
         | some (xs, r3) => some (.arr xs, r3)
         | none => none)
    | '\x7b' :: r =>
      (match skipJWs r with
       | '\x7d' :: r2 => some (.obj .nil, r2)
       | r2 =>
         match parseFields fuel r2 with
         | some (fs, r3) => some (.obj fs, r3)
         | none => none)
    | c :: r =>
      if c = '-' || isDigitCh c then
        (parseNum (c :: r)).map (fun p => (.num p.1.1 p.1.2, p.2))
      else none
    | [] => none

/-- One-or-more comma-separated array elements, consuming the closing `]`. -/
def parseItems : Nat → List Char → Option (JsonList × List Char)
  | 0, _ => none
  | fuel + 1, s =>
    match parseJ fuel s with
    | none => none
    | some (v, r) =>
      match skipJWs r with
      | ',' :: r2 =>
        (match parseItems fuel r2 with
         | some (xs, r3) => some (.cons v xs, r3)
         | none => none)
      | ']' :: r2 => some (.cons v .nil, r2)
      | _ => none

/-- One-or-more comma-separated object members, consuming the closing
    brace. -/
def parseFields : Nat → List Char → Option (JsonFields × List Char)
  | 0, _ => none
  | fuel + 1, s =>
    match skipJWs s with
    | '"' :: r =>
      (match parseStrBody (r.length + 1) r with
       | none => none
       | some (key, r1) =>
         match skipJWs r1 with
         | ':' :: r2 =>
           (match parseJ fuel r2 with
            | none => none
            | some (v, r3) =>
              match skipJWs r3 with
              | ',' :: r4 =>
                (match parseFields fuel r4 with
                 | some (fs, r5) => some (.cons key v fs, r5)
                 | none => none)
              | '\x7d' :: r4 => some (.cons key v .nil, r4)
              | _ => none)
         | _ => none)
    | _ => none

end

/-- `JSON.parse`: a complete document, with only whitespace allowed after the
    value.  The input length bounds the fuel any successful parse can
    consume. -/
def jsonParse (text : List Char) : Option Json :=
  match parseJ (text.length + 1) text with
  | some (v, rest) => if skipJWs rest = [] then some v else none
  | none => none

/-- JS truthiness of a parsed JSON value (`!parsed`): `null`, `false`, `0`
    and `""` are falsy; every object and array is truthy. -/
def jsTruthy : Json → Bool
  | .null => false
  | .bool b => b
  | .num m _ => !(m = 0)
  | .str s => !s.isEmpty
  | .arr _ => true
  | .obj _ => true

/-- `typeof parsed === 'object'`: true for `null`, arrays, and plain
    objects. -/
def jsTypeofObject : Json → Bool
  | .null => true
  | .arr _ => true
  | .obj _ => true
  | _ => false

/-- Member lookup with JS duplicate-key semantics: in an object literal the
    last occurrence of a key wins. -/
def jsGetLast : JsonFields → List Char → Option Json
  | .nil, _ => none
  | .cons k v fs, key =>
    match jsGetLast fs key with
    | some r => some r
    | none => if k = key then some v else none

/-- `parsed.tasks`: property access on a non-null object; arrays have no
    `tasks` property (the short-circuit in the source never reaches this on
    `null` or primitives). -/
def getMember : Json → List Char → Option Json
  | .obj fs, key => jsGetLast fs key
  | _, _ => none

/-- `Array.isArray(parsed.tasks)`. -/
def isTasksArray (v : Json) : Bool :=
  match getMember v ("tasks".data) with
  | some (.arr _) => true
  | _ => false

/-- The result object of `Storage.importJSON`:
    `{ success, data?, error? }`. -/
structure ImportResult where
  success : Bool
  data : Option Json := none
  error : Option (List Char) := none
deriving DecidableEq, Repr

namespace Storage

/-- The message of the structural-validation `throw` in `importJSON`. -/
def importErrMsg : List Char :=
  "Invalid registry format: Missing mandatory 'tasks' array.".data

/-- The message a failed `JSON.parse` produces (host-defined text; only its
    presence matters). -/
def parseErrMsg : List Char := "Unexpected token in JSON".data

/-- `Storage.importJSON`: parse, then require a truthy value of object type
    whose `tasks` member is an array; wrap everything in a tagged result —
    both the `JSON.parse` failure and the structural `throw` land in the
    `catch`, so nothing escapes.  No per-record validation happens here. -/
def importJSON (jsonString : List Char) : ImportResult :=
  match jsonParse jsonString with
  | none => { success := false, error := some parseErrMsg }
  | some parsed =>
    if !jsTruthy parsed || !jsTypeofObject parsed || !isTasksArray parsed then
      { success := false, error := some importErrMsg }
    else { success := true, data := some parsed }

/-- The blob and filename `Storage.exportJSON` downloads:
    `JSON.stringify(data, null, 2)` under a date-stamped name. -/
structure ExportBlob where
  text : List Char
  filename : List Char
deriving DecidableEq, Repr

/-- `Storage.exportJSON` (the DOM download mechanics aside): pretty-printed
    snapshot text, date-stamped filename. -/
def exportJSON (data : Json) (today : List Char) : ExportBlob :=
  { text := Json.render 0 data,
    filename := "campus-flow-export-".data ++ (today ++ ".json".data) }

end Storage

/-- A remainder that cannot extend a rendered number: empty, or starting with
    a character that is neither a digit, a point, nor an exponent marker.
    All JSON separators qualify. -/
def numDelim : List Char → Bool
  | [] => true
  | c :: _ => !(isDigitCh c || c = '.' || c = 'e' || c = 'E')

mutual

/-- A fuel budget sufficient for `parseJ` to parse this value's rendering
    (each parser call consumes one fuel before recursing). -/
def Json.fuelNeed : Json → Nat
  | .null => 1
  | .bool _ => 1
  | .num _ _ => 1
  | .str _ => 1
  | .arr .nil => 1
  | .arr (.cons x xs) => 1 + JsonList.itemsFuel x xs
  | .obj .nil => 1
  | .obj (.cons k v fs) => 1 + JsonFields.fieldsFuel k v fs
termination_by j => sizeOf j

/-- Fuel budget for `parseItems` on a non-empty element list. -/
def JsonList.itemsFuel (x : Json) (xs : JsonList) : Nat :=
  1 + max (Json.fuelNeed x)
    (match xs with
     | .nil => 0
     | .cons y ys => JsonList.itemsFuel y ys)
termination_by sizeOf (JsonList.cons x xs)

/-- Fuel budget for `parseFields` on a non-empty member list. -/
def JsonFields.fieldsFuel (k : List Char) (v : Json) (fs : JsonFields) : Nat :=
  1 + max (Json.fuelNeed v)
    (match fs with
     | .nil => 0
     | .cons k2 v2 gs => JsonFields.fieldsFuel k2 v2 gs)
termination_by sizeOf (JsonFields.cons k v fs)

end

mutual

/-- Every number in the value is in canonical (trailing-zero-free) form —
    true of every value `JSON.parse` can produce, since JS numbers carry no
    representation beyond their value. -/
def Json.canonicalNums : Json → Bool
  | .null => true
  | .bool _ => true
  | .num m k => decide (reduceDec m k = (m, k))
  | .str _ => true
  | .arr xs => JsonList.canonicalList xs
  | .obj fs => JsonFields.canonicalFields fs
termination_by j => sizeOf j

/-- Canonical numbers in every array element. -/
def JsonList.canonicalList : JsonList → Bool
  | .nil => true
  | .cons x xs => Json.canonicalNums x && JsonList.canonicalList xs
termination_by xs => sizeOf xs

/-- Canonical numbers in every member value. -/
def JsonFields.canonicalFields : JsonFields → Bool
  | .nil => true
  | .cons _ v fs => Json.canonicalNums v && JsonFields.canonicalFields fs
termination_by fs => sizeOf fs

end

/-! ## Spec-side predicates (the claims' own words, for the refinement
    statements) -/

/-- Spec wording for C3: the raw title has leading whitespace. -/
def hasLeadingWs (s : List Char) : Prop :=
  ∃ c, s.head? = some c ∧ jsIsSpace c = true

/-- Spec wording for C3: the raw title has trailing whitespace. -/
def hasTrailingWs (s : List Char) : Prop :=
  ∃ c, s.getLast? = some c ∧ jsIsSpace c = true

/-- The amendment C3 needs: some strictly internal character is a line
    terminator (which the anchored `.*` cannot match). -/
def hasInnerLineTerm (s : List Char) : Prop :=
  ∃ c ∈ (s.drop 1).dropLast, isLineTerm c = true

/-- Spec wording for C4: the title contains two identical words — complete
    words, compared case-insensitively — separated only by whitespace: a
    decomposition `a ++ w ++ sp ++ v ++ b` where `w` is a non-empty maximal
    word-character run (bounded on the left by start-of-text or a non-word
    character), `sp` is non-empty whitespace, `v` is a case-insensitive copy
    of `w`, and `v` ends at a word boundary. -/
def SpecDupWords (s : List Char) : Prop :=
  ∃ a w sp v b,
    s = a ++ w ++ sp ++ v ++ b ∧
    w ≠ [] ∧ (∀ c ∈ w, wordChar c = true) ∧
    sp ≠ [] ∧ (∀ c ∈ sp, jsIsSpace c = true) ∧
    foldEqL v w = true ∧
    (a = [] ∨ ∃ p, a.getLast? = some p ∧ wordChar p = false) ∧
    (b = [] ∨ ∃ c bs, b = c :: bs ∧ wordChar c = false)

/-- Spec wording for C2: the duration value `m / 10^k` is a non-negative
    exact multiple of 0.25. -/
def isQuarterMultiple (m : Int) (k : Nat) : Prop :=
  ∃ j : Nat, (m : ℚ) / 10 ^ k = (j : ℚ) / 4

/-- Spec wording for C9: the duration sum of the tasks whose matched category
    resolves to the `work` bucket. -/
def specWorkSum (tasks : List TaskRec) (categories : List Category) : ℚ :=
  ((tasks.filter fun t =>
    match Helpers.matchedCat categories t with
    | some cat => (if cat.type = [] then "work".data else cat.type) = "work".data
    | none => false).map fun t => durQ t.duration).sum

/-- Spec wording for C9: the duration sum of the `life` bucket. -/
def specLifeSum (tasks : List TaskRec) (categories : List Category) : ℚ :=
  ((tasks.filter fun t =>
    match Helpers.matchedCat categories t with
    | some cat => (if cat.type = [] then "work".data else cat.type) = "life".data
    | none => false).map fun t => durQ t.duration).sum

/-- The work percentage exactly as claim C9 words it: bucket sum over the
    combined total *floored to 1* (any combined total below 1 — including 0 —
    replaced by 1), times 100. -/
def claimedWorkPerc (tasks : List TaskRec) (categories : List Category) : ℚ :=
  specWorkSum tasks categories /
    (max (specWorkSum tasks categories + specLifeSum tasks categories) 1) * 100

/-- The life percentage as claim C9 words it. -/
def claimedLifePerc (tasks : List TaskRec) (categories : List Category) : ℚ :=
  specLifeSum tasks categories /
    (max (specWorkSum tasks categories + specLifeSum tasks categories) 1) * 100

/-! ## Concrete fixtures for witnesses and counterexamples -/

/-- A form whose title trips the duplicate-word rule (all other fields
    valid). -/
def gymForm : FormData :=
  { title := "Gym Gym".data, date := "2024-03-01".data,
    duration := some (15, 1), status := "planned".data }

/-- A fully valid create form. -/
def studyForm : FormData :=
  { title := "Study Math".data, date := "2024-03-01".data,
    duration := some (15, 1), status := "planned".data }

/-- A valid update form addressed at the (absent) id `rec_b`. -/
def updateFormB : FormData :=
  { taskId := "rec_b".data, title := "Study Math".data, date := "2024-03-01".data,
    duration := some (15, 1), status := "planned".data }

/-- A stored sample record with id `rec_a`. -/
def task0 : TaskRec :=
  { id := "rec_a".data, title := "Seed".data, date := "2024-01-01".data,
    duration := some (1, 0), status := "planned".data }

/-! # Theorems -/

/-! ## Generic helper lemmas -/

/-- In a valid code-point range, `Char.ofNat` round-trips through `toNat`. -/
theorem toNat_ofNat_lt {n : Nat} (h : n < 55296) : (Char.ofNat n).toNat = n := by
  have hv : n.isValidChar := Or.inl h
  simp only [Char.ofNat, dif_pos hv]
  rfl

/-- Splitting an append at a predicate boundary: if every element of `a`
    satisfies `p` and the head of `b` (if any) does not, the `takeWhile` /
    `dropWhile` pair of `a ++ b` is exactly `(a, b)`. -/
theorem takeWhile_dropWhile_app {p : Char → Bool} {a b : List Char}
    (ha : ∀ c ∈ a, p c = true) (hb : ∀ c bs, b = c :: bs → p c = false) :
    (a ++ b).takeWhile p = a ∧ (a ++ b).dropWhile p = b := by
  induction a with
  | nil =>
    cases b with
    | nil => exact ⟨rfl, rfl⟩
    | cons c bs => simp [List.takeWhile, List.dropWhile, hb c bs rfl]
  | cons x a' ih =>
    have hx : p x = true := ha x (by simp)
    have ih' := ih (fun c hc => ha c (by simp [hc]))
    simp [List.takeWhile, List.dropWhile, hx, ih'.1, ih'.2]

/-- `jsTrim` of a nonempty result forces some non-space character; conversely
    an all-space list trims to nothing. -/
theorem jsTrim_eq_nil_iff (s : List Char) :
    jsTrim s = [] ↔ ∀ c ∈ s, jsIsSpace c = true := by
  unfold jsTrim
  constructor
  · intro h c hc
    by_cases h1 : ∀ x ∈ s, jsIsSpace x = true
    · exact h1 c hc
    · rw [List.reverse_eq_nil_iff, List.dropWhile_eq_nil_iff] at h
      by_contra hcsp
      have hcmem : c ∈ s.dropWhile jsIsSpace := by
        by_contra hnot
        have : s.dropWhile jsIsSpace = [] → False := by
          intro hnil
          rw [List.dropWhile_eq_nil_iff] at hnil
          exact absurd (hnil c hc) hcsp
        rcases hd : s.dropWhile jsIsSpace with _ | ⟨y, ys⟩
        · exact this hd
        · have : c ∈ s.takeWhile jsIsSpace ∨ c ∈ s.dropWhile jsIsSpace := by
            have := List.takeWhile_append_dropWhile jsIsSpace s
            rw [← this] at hc
            simpa using List.mem_append.mp hc
          rcases this with h2 | h2
          · exact absurd (List.mem_takeWhile_imp h2) hcsp
          · rw [hd] at h2; rw [← hd] at h2; exact hnot h2
      have := h c (by simpa using hcmem)
      exact absurd this hcsp
  · intro h
    have h1 : s.dropWhile jsIsSpace = [] := List.dropWhile_eq_nil_iff.mpr h
    simp [h1]

/-- A character cannot be both JS whitespace and a word character. -/
theorem space_not_word {c : Char} (h : jsIsSpace c = true) : wordChar c = false := by
  simp only [jsIsSpace, Bool.or_eq_true, decide_eq_true_eq, Bool.and_eq_true] at h
  simp only [wordChar, Bool.or_eq_false_iff, Bool.and_eq_false_iff,
    decide_eq_false_iff_not, not_le]
  omega

/-- Contrapositive form: a word character is never JS whitespace. -/
theorem word_not_space {c : Char} (h : wordChar c = true) : jsIsSpace c = false := by
  by_contra hsp
  rw [Bool.not_eq_false] at hsp
  rw [space_not_word hsp] at h
  exact Bool.false_ne_true h

/-- Case canonicalization preserves word-character-ness: characters with
    equal folds agree on `wordChar`. -/
theorem wordChar_eq_of_foldN_eq {a b : Char} (h : foldN a.toNat = foldN b.toNat) :
    wordChar a = wordChar b := by
  simp only [foldN] at h
  split_ifs at h
  all_goals
    rw [Bool.eq_iff_iff]
    simp only [wordChar, Bool.or_eq_true, Bool.and_eq_true, decide_eq_true_eq]
    omega

/-! ## C1 — validation failures never mutate or persist -/

/-- C1: whenever `validateTask` returns a non-empty error mapping for the
    candidate record `handleSave` built from the form, the call — create
    (empty task id) and update (non-empty task id) alike — returns with the
    task collection unchanged, nothing persisted, and the error mapping
    surfaced. -/
theorem handleSave_invalid_no_mutation (tasks : List TaskRec) (form : FormData)
    (freshId now : List Char)
    (h : (Validators.validateTask (App.buildFormData form freshId now)).isEmpty = false) :
    App.handleSave tasks form freshId now =
      { tasks := tasks, persisted := false,
        error := some (Validators.validateTask (App.buildFormData form freshId now)) } := by
  unfold App.handleSave
  simp [h]

/-- Witness for C1: creating with title "Gym Gym" fails validation
    (duplicate word) and leaves the empty collection unchanged, nothing
    persisted. -/
theorem handleSave_invalid_no_mutation_witness :
    (Validators.validateTask (App.buildFormData gymForm "rec_1".data "T".data)).isEmpty
        = false ∧
    (App.handleSave [task0] gymForm "rec_1".data "T".data).tasks = [task0] ∧
    (App.handleSave [task0] gymForm "rec_1".data "T".data).persisted = false := by
  have h := handleSave_invalid_no_mutation [task0] gymForm "rec_1".data "T".data
    (by decide)
  exact ⟨by decide, by rw [h], by rw [h]⟩

/-! ## C8 — update with an absent id -/

/-- C8 (counterexample to the claim as stated): updating the one-record
    collection under the absent id `rec_b` with valid data does not fail at
    all — `findIndex` misses, no error of any kind (no `NotFound`) is
    produced, and the call completes as a successful, persisted save with the
    collection's elements unchanged. -/
theorem handleSave_missing_id_counterexample :
    App.handleSave [task0] updateFormB "rec_9".data "T".data =
      { tasks := [task0], persisted := true, error := none } := by decide

/-- C8 (amended): an update whose (non-empty) id matches no stored record
    leaves the task collection unchanged but reports no error: the code has
    no `NotFound` path, the stray `tasks[-1]` assignment does not touch the
    array's elements, and the unchanged snapshot is persisted as a success. -/
theorem handleSave_missing_id (tasks : List TaskRec) (form : FormData)
    (freshId now : List Char)
    (hval : (Validators.validateTask (App.buildFormData form freshId now)).isEmpty = true)
    (hid : form.taskId ≠ [])
    (hmiss : tasks.findIdx? (fun t => t.id = form.taskId) = none) :
    App.handleSave tasks form freshId now =
      { tasks := tasks, persisted := true, error := none } := by
  unfold App.handleSave
  simp [hval, hid, hmiss]

/-- Witness for C8 (amended), at the concrete absent id `rec_b`. -/
theorem handleSave_missing_id_witness :
    (Validators.validateTask (App.buildFormData updateFormB "rec_9".data "T".data)).isEmpty
        = true ∧
    updateFormB.taskId ≠ [] ∧
    App.handleSave [task0] updateFormB "rec_9".data "T".data =
      { tasks := [task0], persisted := true, error := none } :=
  ⟨by decide, by decide,
   handleSave_missing_id [task0] updateFormB "rec_9".data "T".data
     (by decide) (by decide) (by decide)⟩

/-! ## C5 — safe pattern compilation, null matcher is the identity filter -/

/-- C5: `compileRegex` never raises (it is total by construction, mirroring
    the try/catch): a blank pattern compiles to `null`, a syntactically
    invalid pattern (one on which `new RegExp` throws, `syntaxOk = false`)
    compiles to `null`, and `filterTasks` with a `null` matcher returns the
    input collection itself — the identity, in original order. -/
theorem compileRegex_safe_and_null_filter_id :
    (∀ pattern ci ok, jsTrim pattern = [] →
      SearchEngine.compileRegex pattern ci ok = none) ∧
    (∀ pattern ci, SearchEngine.compileRegex pattern ci false = none) ∧
    (∀ tasks test, SearchEngine.filterTasks tasks none test = tasks) := by
  refine ⟨?_, ?_, ?_⟩
  · intro p ci ok h
    unfold SearchEngine.compileRegex
    by_cases hp : p = [] <;> simp [hp, h]
  · intro p ci
    unfold SearchEngine.compileRegex
    by_cases hp : p = [] <;> by_cases ht : jsTrim p = [] <;> simp [hp, ht]
  · intro tasks test
    rfl

/-- Witness for C5: the unbalanced pattern "[" (on which `new RegExp`
    throws) and the empty pattern both yield `null`, and a `null` matcher
    filters nothing. -/
theorem compileRegex_safe_and_null_filter_id_witness :
    SearchEngine.compileRegex ("[".data) true false = none ∧
    SearchEngine.compileRegex [] true true = none ∧
    SearchEngine.filterTasks [task0] none (fun _ _ => true) = [task0] :=
  ⟨compileRegex_safe_and_null_filter_id.2.1 ("[".data) true,
   compileRegex_safe_and_null_filter_id.1 [] true true (by decide),
   compileRegex_safe_and_null_filter_id.2.2 [task0] (fun _ _ => true)⟩

/-! ## C10 — `name` takes precedence in validation, `title` in search -/

/-- C10: with a non-empty `name`, all title rules of `validateTask` run on
    `name` and the `title` field is ignored entirely (replacing it changes
    nothing); `title` is consulted only when `name` is empty or absent.  The
    search text of `filterTasks` goes the other way: built from `title` when
    present, falling back to `name` (and replacing `name` changes nothing
    when `title` is present). -/
theorem validate_name_precedence_search_title_precedence :
    (∀ t : TaskRec, t.name ≠ [] →
      Validators.activityTitleOf t = t.name ∧
      ∀ x, Validators.validateTask { t with title := x } = Validators.validateTask t) ∧
    (∀ t : TaskRec, t.name = [] → Validators.activityTitleOf t = t.title) ∧
    (∀ t : TaskRec, t.title ≠ [] →
      SearchEngine.displayTitle t = t.title ∧
      ∀ x, SearchEngine.contentOf { t with name := x } = SearchEngine.contentOf t) ∧
    (∀ t : TaskRec, t.title = [] → SearchEngine.displayTitle t = t.name) := by
  refine ⟨?_, ?_, ?_, ?_⟩
  · intro t hn
    constructor
    · simp [Validators.activityTitleOf, hn]
    · intro x
      simp [Validators.validateTask, Validators.activityTitleOf, hn]
  · intro t hn
    simp [Validators.activityTitleOf, hn]
  · intro t ht
    constructor
    · simp [SearchEngine.displayTitle, ht]
    · intro x
      simp [SearchEngine.contentOf, SearchEngine.displayTitle, ht]
  · intro t ht
    simp [SearchEngine.displayTitle, ht]

/-- Witness for C10: a record carrying both `name` and `title`: validation
    reads `name` (and ignores a replaced `title`), search reads `title`. -/
theorem validate_name_precedence_search_title_precedence_witness :
    Validators.activityTitleOf { name := "N x".data, title := "T".data } = "N x".data ∧
    Validators.validateTask { name := "N x".data, title := "Z".data } =
      Validators.validateTask { name := "N x".data, title := "T".data } ∧
    SearchEngine.displayTitle { name := "N x".data, title := "T".data } = "T".data := by
  have h1 := validate_name_precedence_search_title_precedence.1
    { name := "N x".data, title := "T".data } (by decide)
  have h3 := (validate_name_precedence_search_title_precedence.2.2.1
    { name := "N x".data, title := "T".data } (by decide)).1
  exact ⟨h1.1, h1.2 ("Z".data), h3⟩

/-! ## C3 — the title padding rule -/

/-- Failure analysis of the anchored title pattern `^\S(?:.*\S)?$` on a
    non-empty string: it rejects exactly the strings with a leading space, a
    trailing space, or an internal line terminator. -/
theorem titleTest_false_iff : ∀ (s : List Char), s ≠ [] →
    (titleTest s = false ↔ (hasLeadingWs s ∨ hasTrailingWs s ∨ hasInnerLineTerm s))
  | [], h => absurd rfl h
  | [c], _ => by
    simp [titleTest, hasLeadingWs, hasTrailingWs, hasInnerLineTerm]
  | c :: r1 :: rs, _ => by
    obtain ⟨d, hd⟩ : ∃ d, (r1 :: rs).getLast? = some d := by
      cases h : (r1 :: rs).getLast? with
      | none => exact absurd (List.getLast?_eq_none_iff.mp h) (by simp)
      | some d => exact ⟨d, rfl⟩
    simp only [titleTest, hd, titleLastOk, hasLeadingWs, hasTrailingWs, hasInnerLineTerm,
      List.head?_cons, List.getLast?_cons_cons, List.drop_succ_cons, List.drop_zero,
      List.isEmpty_cons, Bool.false_or]
    constructor
    · intro h
      rcases Bool.and_eq_false_iff.mp h with h1 | h2
      · left
        exact ⟨c, rfl, by simpa using h1⟩
      · rcases Bool.and_eq_false_iff.mp h2 with h3 | h4
        · right; left
          exact ⟨d, rfl, by simpa using h3⟩
        · right; right
          have : ¬∀ x ∈ (r1 :: rs).dropLast, jsDotChar x = true := by
            intro hall
            rw [List.all_eq_true.mpr hall] at h4
            exact Bool.false_ne_true h4.symm
          push_neg at this
          obtain ⟨x, hx, hxd⟩ := this
          exact ⟨x, hx, by simpa [jsDotChar] using hxd⟩
    · intro h
      rcases h with ⟨x, hx, hsp⟩ | ⟨x, hx, hsp⟩ | ⟨x, hx, hlt⟩
      · obtain rfl : x = c := by simpa using hx.symm
        simp [hsp]
      · obtain rfl : x = d := by simpa using hx.symm
        simp [hsp]
      · have hall : ((r1 :: rs).dropLast.all jsDotChar) = false := by
          rw [Bool.eq_false_iff]
          intro hall
          have := List.all_eq_true.mp hall x hx
          rw [jsDotChar, hlt] at this
          exact Bool.false_ne_true (by simpa using this)
        simp [hall]

/-- C3 (counterexample to the claim as stated): the raw title
    `['a', '\n', 'b']` is non-empty after trimming and has no leading or
    trailing whitespace — its only whitespace is internal — yet
    `validateTask` reports the padding error, because the anchored `.*`
    cannot match across the internal newline. -/
theorem titlePadding_internal_newline_counterexample :
    jsTrim ['a', '\n', 'b'] ≠ [] ∧
    ¬hasLeadingWs ['a', '\n', 'b'] ∧
    ¬hasTrailingWs ['a', '\n', 'b'] ∧
    (Validators.validateTask { title := ['a', '\n', 'b'] }).title =
      some Validators.titlePaddingMsg := by
  refine ⟨by decide, ?_, ?_, by decide⟩
  · rintro ⟨x, hx, hsp⟩
    have : x = 'a' := by simpa using hx.symm
    subst this
    exact absurd hsp (by decide)
  · rintro ⟨x, hx, hsp⟩
    have h1 : (['a', '\n', 'b'] : List Char).getLast? = some 'b' := by decide
    rw [h1] at hx
    have : x = 'b' := by simpa using hx.symm
    subst this
    exact absurd hsp (by decide)

/-- C3 (amended): for every candidate whose checked title is non-empty after
    trimming, `validateTask` reports the title-padding error iff the raw
    title has leading whitespace, trailing whitespace, or an internal line
    terminator; internal whitespace other than a line terminator never
    triggers it. -/
theorem validateTask_titlePadding_iff (t : TaskRec) (s : List Char)
    (hs : Validators.activityTitleOf t = s) (htrim : jsTrim s ≠ []) :
    ((Validators.validateTask t).title = some Validators.titlePaddingMsg ↔
      (hasLeadingWs s ∨ hasTrailingWs s ∨ hasInnerLineTerm s)) := by
  have hsne : s ≠ [] := by
    intro h
    subst h
    exact htrim rfl
  have key : (Validators.validateTask t).title =
      (if !titleTest s then some Validators.titlePaddingMsg
       else if duplicateWordsTest s then some Validators.titleDupMsg else none) := by
    simp [Validators.validateTask, hs, hsne, htrim]
  rw [key, ← titleTest_false_iff s hsne]
  by_cases hp : titleTest s
  · rw [if_neg (by simp [hp])]
    constructor
    · intro h
      by_cases hdup : duplicateWordsTest s
      · rw [if_pos hdup] at h
        have : Validators.titleDupMsg = Validators.titlePaddingMsg := by
          simpa using h
        exact absurd this (by decide)
      · rw [if_neg hdup] at h
        exact absurd h (by simp)
    · intro h
      rw [hp] at h
      exact absurd h (by simp)
  · rw [Bool.not_eq_true] at hp
    rw [if_pos (by simp [hp])]
    simp [hp]

/-- Witness for C3 (amended): a leading space on a trim-nonempty title is
    reported as padding. -/
theorem validateTask_titlePadding_iff_witness :
    (Validators.validateTask { title := [' ', 'x'] }).title =
      some Validators.titlePaddingMsg :=
  (validateTask_titlePadding_iff { title := [' ', 'x'] } [' ', 'x'] rfl
    (by decide)).mpr (Or.inl ⟨' ', rfl, by decide⟩)

/-! ## C9 — the work/life balance aggregate -/

/-- The `forEach` accumulation of `calculateBalance` computes, over any
    start state, exactly the two bucket sums of the spec wording. -/
theorem foldl_calcStep (cats : List Category) :
    ∀ (ts : List TaskRec) (st : ℚ × ℚ),
      ts.foldl (Helpers.calcStep cats) st =
        (st.1 + specWorkSum ts cats, st.2 + specLifeSum ts cats)
  | [], st => by simp [specWorkSum, specLifeSum]
  | t :: ts, st => by
    rw [List.foldl_cons, foldl_calcStep cats ts]
    unfold Helpers.calcStep
    cases hmc : Helpers.matchedCat cats t with
    | none =>
      simp only [specWorkSum, specLifeSum, List.filter_cons, hmc]
      simp
    | some cat =>
      by_cases hty : (if cat.type = [] then "work".data else cat.type) = "work".data
      · have hne : ¬((if cat.type = [] then "work".data else cat.type) = "life".data) := by
          rw [hty]
          decide
        simp only [specWorkSum, specLifeSum, List.filter_cons, hmc, hty, hne]
        simp [hty, hne]
        ring
      · by_cases hty2 : (if cat.type = [] then "work".data else cat.type) = "life".data
        · simp only [specWorkSum, specLifeSum, List.filter_cons, hmc, hty, hty2]
          simp [hty, hty2]
          ring
        · simp only [specWorkSum, specLifeSum, List.filter_cons, hmc, hty, hty2]
          simp [hty, hty2]

/-- C9 (counterexample to the claim as stated): a single `academic` task of
    half an hour.  The combined total 0.5 is truthy, so the code divides by
    0.5 and reports a work percentage of 100; the claim's "combined total
    floored to 1" denominator would report 50. -/
theorem calculateBalance_floor_counterexample :
    (Helpers.calculateBalance
        [{ category := "academic".data, duration := some (5, 1) }]
        [{ id := "academic".data, type := "work".data }]).workPerc = 100 ∧
    claimedWorkPerc
        [{ category := "academic".data, duration := some (5, 1) }]
        [{ id := "academic".data, type := "work".data }] = 50 := by
  constructor
  · unfold Helpers.calculateBalance
    rw [foldl_calcStep]
    simp [specWorkSum, specLifeSum, Helpers.matchedCat, List.find?, List.filter, durQ]
  · simp [claimedWorkPerc, specWorkSum, specLifeSum, Helpers.matchedCat,
      List.find?, List.filter, durQ]
    norm_num

/-- C9 (amended): `calculateBalance` returns each bucket's summed duration
    divided by the combined work-plus-life total — with the total replaced by
    1 only when it is exactly 0 (the JS `|| 1` applies to the falsy total 0
    and to nothing else) — times 100, plus the raw sums.  The hypothesis
    restricts to records whose durations are present, the domain on which the
    rational model of JS arithmetic is faithful (a missing duration would
    turn the JS sums into NaN). -/
theorem calculateBalance_formula (tasks : List TaskRec) (cats : List Category)
    (hdur : ∀ t ∈ tasks, (t.duration).isSome = true) :
    Helpers.calculateBalance tasks cats =
      { workPerc := specWorkSum tasks cats /
          (if specWorkSum tasks cats + specLifeSum tasks cats = 0 then 1
           else specWorkSum tasks cats + specLifeSum tasks cats) * 100,
        lifePerc := specLifeSum tasks cats /
          (if specWorkSum tasks cats + specLifeSum tasks cats = 0 then 1
           else specWorkSum tasks cats + specLifeSum tasks cats) * 100,
        workHrs := specWorkSum tasks cats,
        lifeHrs := specLifeSum tasks cats } := by
  unfold Helpers.calculateBalance
  rw [foldl_calcStep]
  simp

/-- Witness for C9 (amended): one work task (1.5h) and one life task (0.5h):
    75% against 25%. -/
theorem calculateBalance_formula_witness :
    Helpers.calculateBalance
        [{ category := "academic".data, duration := some (15, 1) },
         { category := "social".data, duration := some (5, 1) }]
        [{ id := "academic".data, type := "work".data },
         { id := "social".data, type := "life".data }] =
      { workPerc := 75, lifePerc := 25, workHrs := 3 / 2, lifeHrs := 1 / 2 } := by
  rw [calculateBalance_formula _ _ (by decide)]
  simp [specWorkSum, specLifeSum, Helpers.matchedCat, List.find?, List.filter, durQ]
  norm_num

/-! ## C6 — structural import validation -/

/-- C6: `importJSON` is total (never throws — parse failures and the
    structural `throw` both return through the tagged result).  It succeeds
    iff the text parses to a JSON object whose `tasks` member is an array; on
    success the result carries the decoded value verbatim (no per-record
    validation, whatever the array holds); in every other case — unparsable
    text, non-object value, missing or non-array `tasks` — it fails with an
    error message and no data. -/
theorem importJSON_success_iff (text : List Char) :
    ((Storage.importJSON text).success = true ↔
      ∃ fs ts, jsonParse text = some (Json.obj fs) ∧
        jsGetLast fs ("tasks".data) = some (Json.arr ts)) ∧
    (∀ v, jsonParse text = some v → (Storage.importJSON text).success = true →
      (Storage.importJSON text).data = some v ∧
        (Storage.importJSON text).error = none) ∧
    ((Storage.importJSON text).success = false →
      (Storage.importJSON text).data = none ∧
        ∃ e, (Storage.importJSON text).error = some e) := by
  unfold Storage.importJSON
  cases hp : jsonParse text with
  | none =>
    dsimp only
    refine ⟨⟨by simp, ?_⟩, ?_, ?_⟩
    · rintro ⟨fs, ts, hfs, _⟩
      exact absurd hfs (by simp)
    · intro v hv
      exact absurd hv (by simp)
    · intro _
      exact ⟨rfl, Storage.parseErrMsg, rfl⟩
  | some v =>
    dsimp only
    cases v with
    | obj fs =>
      cases hg : jsGetLast fs ("tasks".data) with
      | none =>
        have hta : isTasksArray (Json.obj fs) = false := by
          simp [isTasksArray, getMember, hg]
        refine ⟨⟨by simp [jsTruthy, jsTypeofObject, hta], ?_⟩, ?_, ?_⟩
        · rintro ⟨fs2, ts, hfs2, hg2⟩
          obtain rfl : fs2 = fs := by
            injection hfs2 with h1
            injection h1 with h2
            exact h2.symm
          rw [hg] at hg2
          exact absurd hg2 (by simp)
        · intro w hw hsucc
          rw [if_pos (by simp [jsTruthy, jsTypeofObject, hta])] at hsucc
          exact absurd hsucc (by simp)
        · intro _
          rw [if_pos (by simp [jsTruthy, jsTypeofObject, hta])]
          exact ⟨rfl, Storage.importErrMsg, rfl⟩
      | some w =>
        cases w with
        | arr ts =>
          have hta : isTasksArray (Json.obj fs) = true := by
            simp [isTasksArray, getMember, hg]
          have hcond : ¬(!jsTruthy (Json.obj fs) || !jsTypeofObject (Json.obj fs) ||
              !isTasksArray (Json.obj fs)) = true := by
            simp [jsTruthy, jsTypeofObject, hta]
          refine ⟨⟨fun _ => ⟨fs, ts, rfl, hg⟩, fun _ => ?_⟩, ?_, ?_⟩
          · rw [if_neg hcond]
          · intro w hw _
            obtain rfl : w = Json.obj fs := by
              injection hw with h1
              exact h1.symm
            rw [if_neg hcond]
            exact ⟨rfl, rfl⟩
          · intro hfail
            rw [if_neg hcond] at hfail
            exact absurd hfail (by simp)
        | null =>
          have hta : isTasksArray (Json.obj fs) = false := by
            simp [isTasksArray, getMember, hg]
          refine ⟨⟨by simp [jsTruthy, jsTypeofObject, hta], ?_⟩, ?_, ?_⟩
          · rintro ⟨fs2, ts, hfs2, hg2⟩
            obtain rfl : fs2 = fs := by
              injection hfs2 with h1
              injection h1 with h2
              exact h2.symm
            rw [hg] at hg2
            exact absurd hg2 (by simp)
          · intro w hw hsucc
            rw [if_pos (by simp [jsTruthy, jsTypeofObject, hta])] at hsucc
            exact absurd hsucc (by simp)
          · intro _
            rw [if_pos (by simp [jsTruthy, jsTypeofObject, hta])]
            exact ⟨rfl, Storage.importErrMsg, rfl⟩
        | bool b =>
          have hta : isTasksArray (Json.obj fs) = false := by
            simp [isTasksArray, getMember, hg]
          refine ⟨⟨by simp [jsTruthy, jsTypeofObject, hta], ?_⟩, ?_, ?_⟩
          · rintro ⟨fs2, ts, hfs2, hg2⟩
            obtain rfl : fs2 = fs := by
              injection hfs2 with h1
              injection h1 with h2
              exact h2.symm
            rw [hg] at hg2
            exact absurd hg2 (by simp)
          · intro w hw hsucc
            rw [if_pos (by simp [jsTruthy, jsTypeofObject, hta])] at hsucc
            exact absurd hsucc (by simp)
          · intro _
            rw [if_pos (by simp [jsTruthy, jsTypeofObject, hta])]
            exact ⟨rfl, Storage.importErrMsg, rfl⟩
        | num m k =>
          have hta : isTasksArray (Json.obj fs) = false := by
            simp [isTasksArray, getMember, hg]
          refine ⟨⟨by simp [jsTruthy, jsTypeofObject, hta], ?_⟩, ?_, ?_⟩
          · rintro ⟨fs2, ts, hfs2, hg2⟩
            obtain rfl : fs2 = fs := by
              injection hfs2 with h1
              injection h1 with h2
              exact h2.symm
            rw [hg] at hg2
            exact absurd hg2 (by simp)
          · intro w hw hsucc
            rw [if_pos (by simp [jsTruthy, jsTypeofObject, hta])] at hsucc
            exact absurd hsucc (by simp)
          · intro _
            rw [if_pos (by simp [jsTruthy, jsTypeofObject, hta])]
            exact ⟨rfl, Storage.importErrMsg, rfl⟩
        | str s =>
          have hta : isTasksArray (Json.obj fs) = false := by
            simp [isTasksArray, getMember, hg]
          refine ⟨⟨by simp [jsTruthy, jsTypeofObject, hta], ?_⟩, ?_, ?_⟩
          · rintro ⟨fs2, ts, hfs2, hg2⟩
            obtain rfl : fs2 = fs := by
              injection hfs2 with h1
              injection h1 with h2
              exact h2.symm
            rw [hg] at hg2
            exact absurd hg2 (by simp)
          · intro w hw hsucc
            rw [if_pos (by simp [jsTruthy, jsTypeofObject, hta])] at hsucc
            exact absurd hsucc (by simp)
          · intro _
            rw [if_pos (by simp [jsTruthy, jsTypeofObject, hta])]
            exact ⟨rfl, Storage.importErrMsg, rfl⟩
        | obj gs =>
          have hta : isTasksArray (Json.obj fs) = false := by
            simp [isTasksArray, getMember, hg]
          refine ⟨⟨by simp [jsTruthy, jsTypeofObject, hta], ?_⟩, ?_, ?_⟩
          · rintro ⟨fs2, ts, hfs2, hg2⟩
            obtain rfl : fs2 = fs := by
              injection hfs2 with h1
              injection h1 with h2
              exact h2.symm
            rw [hg] at hg2
            exact absurd hg2 (by simp)
          · intro w hw hsucc
            rw [if_pos (by simp [jsTruthy, jsTypeofObject, hta])] at hsucc
            exact absurd hsucc (by simp)
          · intro _
            rw [if_pos (by simp [jsTruthy, jsTypeofObject, hta])]
            exact ⟨rfl, Storage.importErrMsg, rfl⟩
    | null =>
      refine ⟨⟨by simp [jsTruthy], ?_⟩, ?_, ?_⟩
      · rintro ⟨fs, ts, hfs, _⟩
        injection hfs with h1
        exact absurd h1 (by simp)
      · intro w hw hsucc
        rw [if_pos (by simp [jsTruthy])] at hsucc
        exact absurd hsucc (by simp)
      · intro _
        rw [if_pos (by simp [jsTruthy])]
        exact ⟨rfl, Storage.importErrMsg, rfl⟩
    | bool b =>
      refine ⟨⟨by simp [jsTypeofObject], ?_⟩, ?_, ?_⟩
      · rintro ⟨fs, ts, hfs, _⟩
        injection hfs with h1
        exact absurd h1 (by simp)
      · intro w hw hsucc
        rw [if_pos (by simp [jsTypeofObject])] at hsucc
        exact absurd hsucc (by simp)
      · intro _
        rw [if_pos (by simp [jsTypeofObject])]
        exact ⟨rfl, Storage.importErrMsg, rfl⟩
    | num m k =>
      refine ⟨⟨by simp [jsTypeofObject], ?_⟩, ?_, ?_⟩
      · rintro ⟨fs, ts, hfs, _⟩
        injection hfs with h1
        exact absurd h1 (by simp)
      · intro w hw hsucc
        rw [if_pos (by simp [jsTypeofObject])] at hsucc
        exact absurd hsucc (by simp)
      · intro _
        rw [if_pos (by simp [jsTypeofObject])]
        exact ⟨rfl, Storage.importErrMsg, rfl⟩
    | str s =>
      refine ⟨⟨by simp [jsTypeofObject], ?_⟩, ?_, ?_⟩
      · rintro ⟨fs, ts, hfs, _⟩
        injection hfs with h1
        exact absurd h1 (by simp)
      · intro w hw hsucc
        rw [if_pos (by simp [jsTypeofObject])] at hsucc
        exact absurd hsucc (by simp)
      · intro _
        rw [if_pos (by simp [jsTypeofObject])]
        exact ⟨rfl, Storage.importErrMsg, rfl⟩
    | arr xs =>
      have hta : isTasksArray (Json.arr xs) = false := by
        simp [isTasksArray, getMember]
      refine ⟨⟨by simp [jsTruthy, jsTypeofObject, hta], ?_⟩, ?_, ?_⟩
      · rintro ⟨fs, ts, hfs, _⟩
        injection hfs with h1
        exact absurd h1 (by simp)
      · intro w hw hsucc
        rw [if_pos (by simp [jsTruthy, jsTypeofObject, hta])] at hsucc
        exact absurd hsucc (by simp)
      · intro _
        rw [if_pos (by simp [jsTruthy, jsTypeofObject, hta])]
        exact ⟨rfl, Storage.importErrMsg, rfl⟩

/-- Witness for C6: importing a minimal well-formed snapshot succeeds and
    carries the parsed object; importing a bare array fails. -/
theorem importJSON_success_iff_witness :
    (Storage.importJSON ("\x7b\"tasks\": []\x7d".data)).success = true ∧
    (Storage.importJSON ("[1]".data)).success = false := by
  constructor
  · exact (importJSON_success_iff _).1.mpr
      ⟨JsonFields.cons ("tasks".data) (Json.arr JsonList.nil) JsonFields.nil,
       JsonList.nil, by decide, by decide⟩
  · decide

/-! ## C2 — number rendering and the duration pattern -/

/-- The fuel of `natDigitsF` is irrelevant as long as it dominates the
    input. -/
theorem natDigitsF_congr : ∀ (f g n : Nat), n < f → n < g →
    natDigitsF f n = natDigitsF g n
  | 0, _, n, h, _ => absurd h (Nat.not_lt_zero n)
  | _ + 1, 0, n, _, h => absurd h (Nat.not_lt_zero n)
  | f + 1, g + 1, n, hf, hg => by
    unfold natDigitsF
    by_cases h : n < 10
    · simp [h]
    · have hdiv : n / 10 < n := Nat.div_lt_self (by omega) (by omega)
      rw [if_neg h, if_neg h,
        natDigitsF_congr f g (n / 10) (by omega) (by omega)]

/-- The recurrence `natDigits` satisfies. -/
theorem natDigits_eq (n : Nat) :
    natDigits n =
      if n < 10 then [digitChar n]
      else natDigits (n / 10) ++ [digitChar (n % 10)] := by
  by_cases h : n < 10
  · unfold natDigits natDigitsF
    simp [h]
  · have h1 : natDigits n = natDigitsF n (n / 10) ++ [digitChar (n % 10)] := by
      unfold natDigits
      rw [natDigitsF.eq_def]
      simp [h]
    rw [h1, if_neg h]
    unfold natDigits
    rw [natDigitsF_congr n (n / 10 + 1) (n / 10) (by omega) (by omega)]

/-- The digit character of `d < 10` carries code point `48 + d`. -/
theorem digitChar_toNat {d : Nat} (h : d < 10) : (digitChar d).toNat = 48 + d := by
  unfold digitChar
  exact toNat_ofNat_lt (by omega)

/-- Digit characters are digits. -/
theorem isDigitCh_digitChar {d : Nat} (h : d < 10) : isDigitCh (digitChar d) = true := by
  simp only [isDigitCh, digitChar_toNat h, Bool.and_eq_true, decide_eq_true_eq]
  omega

/-- Every character of a digit expansion is a digit. -/
theorem natDigits_all_digit (n : Nat) : ∀ c ∈ natDigits n, isDigitCh c = true := by
  induction n using Nat.strongRecOn with
  | _ n ih =>
    rw [natDigits_eq]
    intro c hc
    by_cases h : n < 10
    · rw [if_pos h] at hc
      obtain rfl : c = digitChar n := by simpa using hc
      exact isDigitCh_digitChar h
    · rw [if_neg h] at hc
      rcases List.mem_append.mp hc with h1 | h1
      · exact ih (n / 10) (Nat.div_lt_self (by omega) (by omega)) c h1
      · obtain rfl : c = digitChar (n % 10) := by simpa using h1
        exact isDigitCh_digitChar (Nat.mod_lt _ (by omega))

/-- A digit expansion is never empty. -/
theorem natDigits_ne_nil (n : Nat) : natDigits n ≠ [] := by
  rw [natDigits_eq]
  by_cases h : n < 10 <;> simp [h]

/-- A non-zero number's expansion starts with a non-zero digit. -/
theorem natDigits_head_pos (n : Nat) (hn : n ≠ 0) :
    ∃ c t, natDigits n = c :: t ∧ 49 ≤ c.toNat ∧ c.toNat ≤ 57 := by
  induction n using Nat.strongRecOn with
  | _ n ih =>
    rw [natDigits_eq]
    by_cases h : n < 10
    · rw [if_pos h]
      exact ⟨digitChar n, [], rfl, by rw [digitChar_toNat h]; omega,
        by rw [digitChar_toNat h]; omega⟩
    · rw [if_neg h]
      obtain ⟨c, t, hct, h1, h2⟩ :=
        ih (n / 10) (Nat.div_lt_self (by omega) (by omega)) (by omega)
      exact ⟨c, t ++ [digitChar (n % 10)], by rw [hct]; rfl, h1, h2⟩

/-- The integer-part alternative accepts every canonical digit expansion. -/
theorem durIntOk_natDigits (n : Nat) : durIntOk (natDigits n) = true := by
  by_cases hn : n = 0
  · subst hn
    decide
  · obtain ⟨c, t, hct, h1, h2⟩ := natDigits_head_pos n hn
    rw [hct]
    unfold durIntOk
    have hall : t.all isDigitCh = true := by
      rw [List.all_eq_true]
      intro x hx
      exact natDigits_all_digit n x (by rw [hct]; exact List.mem_cons_of_mem c hx)
    simp [h1, h2, hall]

/-- Digit-count bound: below `10^k` at most `k` digits (for `k ≥ 1`). -/
theorem natDigits_length_le : ∀ (k n : Nat), 1 ≤ k → n < 10 ^ k →
    (natDigits n).length ≤ k
  | 0, n, hk, _ => absurd hk (by omega)
  | k + 1, n, _, hlt => by
    rw [natDigits_eq]
    by_cases h : n < 10
    · simp [h]
    · rw [if_neg h]
      have hk1 : 1 ≤ k := by
        by_contra hk0
        have : k = 0 := by omega
        subst this
        simp at hlt
        omega
      have hdivlt : n / 10 < 10 ^ k := by
        apply Nat.div_lt_of_lt_mul
        rw [← pow_succ']
        exact hlt
      have := natDigits_length_le k (n / 10) hk1 hdivlt
      simp only [List.length_append, List.length_cons, List.length_nil]
      omega

/-- Appending one digit multiplies the value by ten and adds it. -/
theorem digitsToNat_append_digit (ds : List Char) (c : Char) :
    digitsToNat (ds ++ [c]) = digitsToNat ds * 10 + (c.toNat - 48) := by
  unfold digitsToNat
  rw [List.foldl_append]
  rfl

/-- Reading back a digit expansion recovers the number. -/
theorem digitsToNat_natDigits (n : Nat) : digitsToNat (natDigits n) = n := by
  induction n using Nat.strongRecOn with
  | _ n ih =>
    rw [natDigits_eq]
    by_cases h : n < 10
    · rw [if_pos h]
      show digitsToNat [digitChar n] = n
      unfold digitsToNat
      simp [digitChar_toNat h]
    · rw [if_neg h, digitsToNat_append_digit,
        ih (n / 10) (Nat.div_lt_self (by omega) (by omega)),
        digitChar_toNat (Nat.mod_lt _ (by omega))]
      omega

/-- Leading zeros do not change the value of a digit string. -/
theorem digitsToNat_replicate_zero (j : Nat) (ds : List Char) :
    digitsToNat (List.replicate j '0' ++ ds) = digitsToNat ds := by
  induction j with
  | zero => rfl
  | succ j ih =>
    rw [List.replicate_succ, List.cons_append]
    show digitsToNat (List.replicate j '0' ++ ds) = digitsToNat ds
    exact ih

/-- Zero-padding does not change the value. -/
theorem digitsToNat_zeroPad (k : Nat) (ds : List Char) :
    digitsToNat (zeroPad k ds) = digitsToNat ds :=
  digitsToNat_replicate_zero _ ds

/-- Padding to a dominating width gives exactly that width. -/
theorem zeroPad_length {k : Nat} {ds : List Char} (h : ds.length ≤ k) :
    (zeroPad k ds).length = k := by
  simp only [zeroPad, List.length_append, List.length_replicate]
  omega

/-- Every character of a zero-padded digit string is a digit. -/
theorem zeroPad_all_digit {k : Nat} {ds : List Char}
    (h : ∀ c ∈ ds, isDigitCh c = true) :
    ∀ c ∈ zeroPad k ds, isDigitCh c = true := by
  intro c hc
  rcases List.mem_append.mp hc with h1 | h1
  · obtain rfl : c = '0' := List.eq_of_mem_replicate h1
    decide
  · exact h c h1

/-- A digit is not a decimal point (for the `takeWhile` split). -/
theorem digit_not_dot {c : Char} (h : isDigitCh c = true) : (!(c = '.')) = true := by
  have hne : c ≠ '.' := by
    intro hce
    rw [hce] at h
    exact absurd h (by decide)
  simp [hne]

/-- Core of C2: on a canonical (reduced) non-negative decimal `n / 10^k`, the
    duration pattern accepts the rendering exactly when the value is a
    multiple of a quarter, i.e. `10^k` divides `4n`. -/
theorem durationTest_decRenderN (n k : Nat) (hred : k = 0 ∨ ¬(n % 10 = 0)) :
    (durationTest (decRenderN n k) = true ↔ 10 ^ k ∣ 4 * n) := by
  rcases Nat.eq_zero_or_pos k with hk0 | hkpos
  · subst hk0
    unfold decRenderN
    rw [if_pos rfl]
    have ht : (natDigits n).takeWhile (fun c => !(c = '.')) = natDigits n :=
      List.takeWhile_eq_self_iff.mpr
        (fun c hc => digit_not_dot (natDigits_all_digit n c hc))
    have hd : (natDigits n).dropWhile (fun c => !(c = '.')) = [] :=
      List.dropWhile_eq_nil_iff.mpr
        (fun c hc => digit_not_dot (natDigits_all_digit n c hc))
    unfold durationTest
    rw [ht, hd, durIntOk_natDigits]
    simp [durFracOk]
  · have hkne : k ≠ 0 := by omega
    have hrednz : n % 10 ≠ 0 := by
      rcases hred with h | h
      · exact absurd h hkne
      · exact h
    unfold decRenderN
    rw [if_neg hkne]
    have hflt : n % 10 ^ k < 10 ^ k := Nat.mod_lt _ (by positivity)
    have hlenP : (zeroPad k (natDigits (n % 10 ^ k))).length = k :=
      zeroPad_length (natDigits_length_le k _ hkpos hflt)
    have hvalP : digitsToNat (zeroPad k (natDigits (n % 10 ^ k))) = n % 10 ^ k := by
      rw [digitsToNat_zeroPad, digitsToNat_natDigits]
    obtain ⟨htake, hdrop⟩ := takeWhile_dropWhile_app
      (p := fun c => !(c = '.'))
      (a := natDigits (n / 10 ^ k)) (b := '.' :: zeroPad k (natDigits (n % 10 ^ k)))
      (fun c hc => digit_not_dot (natDigits_all_digit _ c hc))
      (fun c bs hcb => by
        injection hcb with h1 _
        rw [← h1]
        decide)
    unfold durationTest
    rw [htake, hdrop, durIntOk_natDigits, Bool.true_and]
    constructor
    · intro hfr
      simp only [durFracOk, Bool.or_eq_true, beq_iff_eq] at hfr
      rcases hfr with ((((h1 | h1) | h1) | h1) | h1) | h1
      · exact absurd h1 (by simp)
      · -- fraction "25": k = 2 and n % 100 = 25
        injection h1 with _ h2
        have hk2 : k = 2 := by
          rw [← hlenP, h2]
          rfl
        have h25 : digitsToNat ['2', '5'] = n % 10 ^ k := by
          rw [← h2, hvalP]
        subst hk2
        have hv : n % 100 = 25 := by
          have : digitsToNat ['2', '5'] = 25 := by decide
          rw [this] at h25
          norm_num at h25
          omega
        have : (10:Nat) ^ 2 = 100 := by norm_num
        rw [this]
        omega
      · -- fraction "5": k = 1 and n % 10 = 5
        injection h1 with _ h2
        have hk1 : k = 1 := by
          rw [← hlenP, h2]
          rfl
        have h5 : digitsToNat ['5'] = n % 10 ^ k := by
          rw [← h2, hvalP]
        subst hk1
        have hv : n % 10 = 5 := by
          have : digitsToNat ['5'] = 5 := by decide
          rw [this] at h5
          norm_num at h5
          omega
        have : (10:Nat) ^ 1 = 10 := by norm_num
        rw [this]
        omega
      · -- fraction "75": k = 2 and n % 100 = 75
        injection h1 with _ h2
        have hk2 : k = 2 := by
          rw [← hlenP, h2]
          rfl
        have h75 : digitsToNat ['7', '5'] = n % 10 ^ k := by
          rw [← h2, hvalP]
        subst hk2
        have hv : n % 100 = 75 := by
          have : digitsToNat ['7', '5'] = 75 := by decide
          rw [this] at h75
          norm_num at h75
          omega
        have : (10:Nat) ^ 2 = 100 := by norm_num
        rw [this]
        omega
      · -- fraction "0": would force n % 10 = 0, against canonicity
        exfalso
        injection h1 with _ h2
        have hk1 : k = 1 := by
          rw [← hlenP, h2]
          rfl
        have h0 : digitsToNat ['0'] = n % 10 ^ k := by
          rw [← h2, hvalP]
        subst hk1
        have : digitsToNat ['0'] = 0 := by decide
        rw [this] at h0
        norm_num at h0
        omega
      · -- fraction "00": likewise
        exfalso
        injection h1 with _ h2
        have hk2 : k = 2 := by
          rw [← hlenP, h2]
          rfl
        have h0 : digitsToNat ['0', '0'] = n % 10 ^ k := by
          rw [← h2, hvalP]
        subst hk2
        have : digitsToNat ['0', '0'] = 0 := by decide
        rw [this] at h0
        norm_num at h0
        omega
    · intro hdvd
      rcases k with _ | _ | _ | k3
      · omega
      · -- k = 1: the digit must be 5
        have h10 : (10:Nat) ^ 1 = 10 := by norm_num
        rw [h10] at hdvd
        have hf : n % 10 = 5 := by omega
        have hmod : n % 10 ^ 1 = 5 := by
          rw [h10]
          exact hf
        rw [hmod]
        have : natDigits 5 = ['5'] := by decide
        rw [this]
        decide
      · -- k = 2: the digits must be 25 or 75
        have h100 : (10:Nat) ^ 2 = 100 := by norm_num
        rw [h100] at hdvd
        have hf : n % 100 = 25 ∨ n % 100 = 75 := by omega
        have hmod : n % 10 ^ 2 = n % 100 := by
          rw [h100]
        rcases hf with hf | hf
        · rw [hmod, hf]
          have : natDigits 25 = ['2', '5'] := by decide
          rw [this]
          decide
        · rw [hmod, hf]
          have : natDigits 75 = ['7', '5'] := by decide
          rw [this]
          decide
      · -- k ≥ 3 is impossible for a canonical quarter
        exfalso
        have h3 : (10:Nat) ^ 3 ∣ 10 ^ (k3 + 3) := pow_dvd_pow 10 (by omega)
        have hh := dvd_trans h3 hdvd
        norm_num at hh
        omega

/-- A minus sign fails the duration pattern outright (its integer alternative
    has no sign). -/
theorem durationTest_minus (s : List Char) : durationTest ('-' :: s) = false := rfl

/-- `reduceDec` preserves canonicity, sign, and quarter-multiple-ness: the
    reduced pair is in canonical form and denotes a non-negative quarter
    multiple exactly when the input pair does. -/
theorem reduceDec_props : ∀ (k : Nat) (m : Int),
    ((reduceDec m k).2 = 0 ∨ ¬((reduceDec m k).1 % 10 = 0)) ∧
    (0 ≤ (reduceDec m k).1 ↔ 0 ≤ m) ∧
    ((10:Int) ^ (reduceDec m k).2 ∣ 4 * (reduceDec m k).1 ↔ (10:Int) ^ k ∣ 4 * m)
  | 0, m => ⟨Or.inl rfl, Iff.rfl, Iff.rfl⟩
  | k + 1, m => by
    unfold reduceDec
    by_cases h : m % 10 = 0
    · rw [if_pos h]
      obtain ⟨t, rfl⟩ : ∃ t, m = 10 * t := ⟨m / 10, by omega⟩
      have hdiv : 10 * t / 10 = t := by omega
      rw [hdiv]
      have ih := reduceDec_props k t
      refine ⟨ih.1, ?_, ?_⟩
      · rw [ih.2.1]
        constructor <;> intro <;> omega
      · rw [ih.2.2, pow_succ,
          show (4:Int) * (10 * t) = 4 * t * 10 by ring,
          mul_dvd_mul_iff_right (by norm_num : (10:Int) ≠ 0)]
    · rw [if_neg h]
      exact ⟨Or.inr h, Iff.rfl, Iff.rfl⟩

/-- The duration pattern on the rendering of a canonical signed decimal:
    accepted exactly for non-negative quarter multiples. -/
theorem durationTest_decRender_iff (m : Int) (k : Nat)
    (hred : k = 0 ∨ ¬(m % 10 = 0)) :
    (durationTest (decRender m k) = true ↔ (0 ≤ m ∧ (10:Int) ^ k ∣ 4 * m)) := by
  unfold decRender
  by_cases hm : m < 0
  · rw [if_pos hm, durationTest_minus]
    constructor
    · intro h
      exact absurd h (by simp)
    · rintro ⟨h0, _⟩
      omega
  · rw [if_neg hm]
    have hnn : 0 ≤ m := by omega
    have hcast : ((m.natAbs : Int)) = m := Int.natAbs_of_nonneg hnn
    have hredn : k = 0 ∨ ¬(m.natAbs % 10 = 0) := by
      rcases hred with h | h
      · exact Or.inl h
      · right
        omega
    rw [durationTest_decRenderN m.natAbs k hredn]
    constructor
    · intro hd
      refine ⟨hnn, ?_⟩
      have : ((10:Int) ^ k) ∣ ((4 * m.natAbs : Nat) : Int) := by
        rcases hd with ⟨t, ht⟩
        exact ⟨(t : Int), by push_cast [ht]; ring⟩
      rw [show (((4 * m.natAbs : Nat)) : Int) = 4 * (m.natAbs : Int) by push_cast; ring,
        hcast] at this
      exact this
    · rintro ⟨_, hd⟩
      have : ((10 ^ k : Nat) : Int) ∣ ((4 * m.natAbs : Nat) : Int) := by
        rw [show (((4 * m.natAbs : Nat)) : Int) = 4 * (m.natAbs : Int) by push_cast; ring,
          hcast]
        push_cast
        exact hd
      exact_mod_cast this

/-- The claim wording "non-negative exact multiple of 0.25" coincides with
    the divisibility form `0 ≤ m ∧ 10^k ∣ 4m`. -/
theorem isQuarterMultiple_iff (m : Int) (k : Nat) :
    isQuarterMultiple m k ↔ (0 ≤ m ∧ (10:Int) ^ k ∣ 4 * m) := by
  constructor
  · rintro ⟨j, hj⟩
    rw [div_eq_div_iff (by positivity) (by norm_num : (4:ℚ) ≠ 0)] at hj
    have hz : (m * 4 : Int) = (j : Int) * 10 ^ k := by exact_mod_cast hj
    have hj0 : (0:Int) ≤ (j : Int) * 10 ^ k := by positivity
    constructor
    · omega
    · exact ⟨(j : Int), by linarith⟩
  · rintro ⟨h0, t, ht⟩
    have hp : (0:Int) < 10 ^ k := by positivity
    have ht0 : 0 ≤ t := by nlinarith
    refine ⟨t.toNat, ?_⟩
    have htc : ((t.toNat : Int)) = t := Int.toNat_of_nonneg ht0
    rw [div_eq_div_iff (by positivity) (by norm_num : (4:ℚ) ≠ 0)]
    have hq : ((4 * m : Int) : ℚ) = (((10:Int) ^ k * t : Int) : ℚ) := by
      exact_mod_cast congrArg (fun z : Int => (z : ℚ)) ht
    push_cast at hq
    have htq : ((t.toNat : ℚ)) = ((t : Int) : ℚ) := by exact_mod_cast htc
    push_cast [htq]
    linarith

/-- The value of a concatenated digit string. -/
theorem digitsToNat_append (a b : List Char) :
    digitsToNat (a ++ b) = digitsToNat a * 10 ^ b.length + digitsToNat b := by
  induction b using List.reverseRecOn with
  | nil => simp [digitsToNat]
  | append_singleton bs c ih =>
    rw [← List.append_assoc, digitsToNat_append_digit, ih, digitsToNat_append_digit]
    simp only [List.length_append, List.length_cons, List.length_nil, pow_succ,
      pow_add]
    ring

/-- A digit string is bounded by ten to its length. -/
theorem digitsToNat_lt (ds : List Char) (hds : ∀ c ∈ ds, isDigitCh c = true) :
    digitsToNat ds < 10 ^ ds.length := by
  induction ds using List.reverseRecOn with
  | nil => simp [digitsToNat]
  | append_singleton bs c ih =>
    rw [digitsToNat_append_digit]
    have hc : c.toNat ≤ 57 := by
      have := hds c (by simp)
      simp only [isDigitCh, Bool.and_eq_true, decide_eq_true_eq] at this
      omega
    have hb := ih (fun x hx => hds x (by simp [hx]))
    simp only [List.length_append, List.length_cons, List.length_nil, pow_succ]
    omega

/-- A number is bounded by ten to its digit count. -/
theorem natDigits_lt (n : Nat) : n < 10 ^ (natDigits n).length := by
  conv_lhs => rw [← digitsToNat_natDigits n]
  exact digitsToNat_lt _ (natDigits_all_digit n)

/-- Digit strings split as their stripped form plus trailing zeros. -/
theorem stripTZ_spec (ds : List Char) :
    ∃ z, ds = stripTZ ds ++ List.replicate z '0' := by
  refine ⟨(ds.reverse.takeWhile (fun c => c = '0')).length, ?_⟩
  apply List.reverse_injective
  rw [List.reverse_append, List.reverse_replicate]
  unfold stripTZ
  rw [List.reverse_reverse]
  conv_lhs => rw [← List.takeWhile_append_dropWhile (fun c => c = '0') ds.reverse]
  congr 1
  exact List.eq_replicate_of_mem (fun b hb =>
    of_decide_eq_true (by simpa using List.mem_takeWhile_imp hb))

/-- Trailing-zero stripping preserves the value up to a power of ten. -/
theorem stripTZ_val (ds : List Char) :
    ∀ z, ds = stripTZ ds ++ List.replicate z '0' →
      digitsToNat ds = digitsToNat (stripTZ ds) * 10 ^ z := by
  intro z hz
  conv_lhs => rw [hz]
  rw [digitsToNat_append, List.length_replicate]
  have : digitsToNat (List.replicate z '0') = 0 := by
    have := digitsToNat_replicate_zero z []
    simpa using this
  rw [this]
  omega

/-- `reduceDec` preserves the denoted rational value. -/
theorem reduceDec_val : ∀ (k : Nat) (m : Int),
    (((reduceDec m k).1 : ℚ)) / 10 ^ (reduceDec m k).2 = (m : ℚ) / 10 ^ k
  | 0, m => rfl
  | k + 1, m => by
    unfold reduceDec
    by_cases h : m % 10 = 0
    · rw [if_pos h]
      obtain ⟨t, rfl⟩ : ∃ t, m = 10 * t := ⟨m / 10, by omega⟩
      have hdiv : 10 * t / 10 = t := by omega
      rw [hdiv, reduceDec_val k t]
      rw [show ((10 * t : Int) : ℚ) = 10 * (t : ℚ) by push_cast; ring, pow_succ,
        mul_comm ((10:ℚ) ^ k) 10, mul_div_mul_left _ _ (by norm_num : (10:ℚ) ≠ 0)]
    · rw [if_neg h]

/-- A reduced quarter multiple has at most two fraction digits. -/
theorem quarter_red_k_le (m : Int) (k : Nat)
    (hred : k = 0 ∨ ¬(m % 10 = 0)) (hdvd : (10:Int) ^ k ∣ 4 * m) : k ≤ 2 := by
  by_contra hgt
  push_neg at hgt
  have h3 : (1000 : Int) ∣ 4 * m :=
    dvd_trans (by
      have : (10:Int) ^ 3 ∣ 10 ^ k := pow_dvd_pow 10 (by omega)
      simpa using this) hdvd
  obtain ⟨t, ht⟩ := h3
  have hm10 : m % 10 = 0 := by omega
  rcases hred with h0 | hne
  · omega
  · exact hne hm10

/-- The duration pattern rejects every exponent-notation rendering. -/
theorem durationTest_expRender (m : Int) (k : Nat) :
    durationTest (expRender m k) = false := by
  unfold expRender
  by_cases hm : m < 0
  · rw [if_pos hm]
    exact durationTest_minus _
  · rw [if_neg hm, List.nil_append]
    obtain ⟨z, hspec⟩ := stripTZ_spec (natDigits m.natAbs)
    cases hDS : stripTZ (natDigits m.natAbs) with
    | nil =>
      show durationTest ('0' :: 'e' :: _) = false
      rfl
    | cons d dtl =>
      have hd_dig : isDigitCh d = true := by
        refine natDigits_all_digit m.natAbs d ?_
        rw [hspec, hDS]
        simp
      have hdig_not_dot := digit_not_dot hd_dig
      cases dtl with
      | nil =>
        show durationTest (d :: 'e' :: expSuffix _) = false
        have hio : ∀ X, durIntOk (d :: 'e' :: X) = false := by
          intro X
          simp [durIntOk, isDigitCh]
        unfold durationTest
        rw [List.takeWhile_cons, if_pos hdig_not_dot, List.takeWhile_cons,
          if_pos (by decide), hio, Bool.false_and]
      | cons e2 dtl2 =>
        show durationTest (d :: '.' ::
          ((e2 :: dtl2) ++ 'e' :: expSuffix _)) = false
        have hfr : ∀ Z, durFracOk ('.' :: ((e2 :: dtl2) ++ 'e' :: Z)) = false := by
          intro Z
          apply Bool.eq_false_iff.mpr
          intro htrue
          simp only [durFracOk, Bool.or_eq_true, beq_iff_eq, -reduceCtorEq] at htrue
          have hmem : 'e' ∈ '.' :: ((e2 :: dtl2) ++ 'e' :: Z) := by simp
          rcases htrue with ((((h | h) | h) | h) | h) | h <;>
            (rw [h] at hmem
             revert hmem
             decide)
        unfold durationTest
        rw [List.dropWhile_cons, if_pos hdig_not_dot, List.dropWhile_cons,
          if_neg (by decide), hfr, Bool.and_false]

/-- In the positional range, with a small reduced exponent, no exponent
    notation is used. -/
theorem jsExpNeeded_false (m : Int) (k : Nat) (hk : k ≤ 2)
    (hlen : ((natDigits m.natAbs).length : Int) - k ≤ 21) :
    jsExpNeeded m k = false := by
  have h1 : 1 ≤ (natDigits m.natAbs).length :=
    List.length_pos.mpr (natDigits_ne_nil m.natAbs)
  unfold jsExpNeeded
  have e1 : decide (21 < ((natDigits m.natAbs).length : Int) - k) = false := by
    simp only [decide_eq_false_iff_not]
    omega
  have e2 : decide (((natDigits m.natAbs).length : Int) - k ≤ -6) = false := by
    simp only [decide_eq_false_iff_not]
    omega
  rw [e1, e2]
  simp

/-- A false notation test bounds the digit count (or the value is zero). -/
theorem jsExpNeeded_false_elim (m : Int) (k : Nat)
    (h : jsExpNeeded m k = false) :
    m = 0 ∨ ((natDigits m.natAbs).length : Int) - k ≤ 21 := by
  by_cases hm : m = 0
  · exact Or.inl hm
  · right
    unfold jsExpNeeded at h
    rw [Bool.and_eq_false_iff] at h
    rcases h with h | h
    · have hb : decide (m = 0) = true := by simpa using h
      exact absurd (of_decide_eq_true hb) hm
    · rw [Bool.or_eq_false_iff] at h
      have h2 := h.1
      rw [decide_eq_false_iff_not] at h2
      omega

/-- C2 as originally worded fails at 1e21: the value is a non-negative exact
    multiple of 0.25, but `String(1e21)` is the exponent form "1e+21", which
    the duration pattern rejects, so validateTask reports `DurationInvalid`. -/
theorem duration_exponent_counterexample :
    isQuarterMultiple (10 ^ 21) 0 ∧
    (Validators.validateTask { duration := some (10 ^ 21, 0) }).duration =
      some Validators.durationMsg := by
  constructor
  · exact ⟨4 * 10 ^ 21, by norm_num⟩
  · decide

/-- C2 (corrected): `validateTask` reports no duration error exactly when the
    duration value `m / 10^k` is a non-negative exact multiple of 0.25 that
    is below 1e21 (at 1e21 and beyond, `String()` switches to exponent
    notation, which the pattern rejects; every other value fails the pattern
    as before). -/
theorem validateTask_duration_iff (t : TaskRec) (m : Int) (k : Nat)
    (h : t.duration = some (m, k)) :
    ((Validators.validateTask t).duration = none ↔
      (isQuarterMultiple m k ∧ (m : ℚ) / 10 ^ k < 10 ^ 21)) := by
  have key : (Validators.validateTask t).duration =
      (if !durationTest (jsNumToString t.duration) then some Validators.durationMsg
       else none) := rfl
  rw [key, h, isQuarterMultiple_iff]
  have hr := reduceDec_props k m
  have hval := reduceDec_val k m
  have hjs : jsNumToString (some (m, k)) =
      (if jsExpNeeded (reduceDec m k).1 (reduceDec m k).2 = true then
        expRender (reduceDec m k).1 (reduceDec m k).2
       else decRender (reduceDec m k).1 (reduceDec m k).2) := rfl
  have hbound : ((m : ℚ) / 10 ^ k < 10 ^ 21 ↔
      (reduceDec m k).1 < 10 ^ (21 + (reduceDec m k).2)) := by
    rw [← hval, div_lt_iff (by positivity)]
    constructor
    · intro hlt
      have h2 : ((reduceDec m k).1 : ℚ) <
          ((10 ^ (21 + (reduceDec m k).2) : Int) : ℚ) := by
        push_cast
        rw [pow_add]
        exact hlt
      exact_mod_cast h2
    · intro hlt
      have h2 : ((reduceDec m k).1 : ℚ) <
          ((10 ^ (21 + (reduceDec m k).2) : Int) : ℚ) := by exact_mod_cast hlt
      push_cast at h2
      rw [pow_add] at h2
      exact h2
  have hcenter : durationTest (jsNumToString (some (m, k))) = true ↔
      ((0 ≤ m ∧ (10:Int) ^ k ∣ 4 * m) ∧ (m : ℚ) / 10 ^ k < 10 ^ 21) := by
    rw [hjs]
    by_cases hexp : jsExpNeeded (reduceDec m k).1 (reduceDec m k).2 = true
    · rw [if_pos hexp, durationTest_expRender]
      constructor
      · intro habs
        exact absurd habs (by simp)
      · rintro ⟨⟨hm0, hdvd⟩, hlt⟩
        exfalso
        have hdvd2 : (10:Int) ^ (reduceDec m k).2 ∣ 4 * (reduceDec m k).1 :=
          hr.2.2.mpr hdvd
        have hm02 : 0 ≤ (reduceDec m k).1 := hr.2.1.mpr hm0
        have hk2 : (reduceDec m k).2 ≤ 2 := quarter_red_k_le _ _ hr.1 hdvd2
        have hlt2 : (reduceDec m k).1 < 10 ^ (21 + (reduceDec m k).2) :=
          hbound.mp hlt
        have hnat : (reduceDec m k).1.natAbs < 10 ^ (21 + (reduceDec m k).2) := by
          have hc : ((reduceDec m k).1.natAbs : Int) <
              ((10 ^ (21 + (reduceDec m k).2) : Nat) : Int) := by
            rw [Int.natAbs_of_nonneg hm02]
            push_cast
            exact hlt2
          exact_mod_cast hc
        have hlen : ((natDigits (reduceDec m k).1.natAbs).length : Int) -
            (reduceDec m k).2 ≤ 21 := by
          have hlp : (natDigits (reduceDec m k).1.natAbs).length ≤
              21 + (reduceDec m k).2 :=
            natDigits_length_le _ _ (by omega) hnat
          omega
        rw [jsExpNeeded_false _ _ hk2 hlen] at hexp
        exact Bool.false_ne_true hexp
    · rw [if_neg hexp]
      rw [durationTest_decRender_iff _ _ hr.1, ← hr.2.1, ← hr.2.2]
      have hexp2 : jsExpNeeded (reduceDec m k).1 (reduceDec m k).2 = false := by
        cases hB : jsExpNeeded (reduceDec m k).1 (reduceDec m k).2 with
        | false => rfl
        | true => exact absurd hB hexp
      constructor
      · rintro ⟨hm0, hdvd⟩
        refine ⟨⟨hm0, hdvd⟩, ?_⟩
        rw [hbound]
        rcases jsExpNeeded_false_elim _ _ hexp2 with h0 | hle
        · rw [h0]
          positivity
        · have hnat : (reduceDec m k).1.natAbs < 10 ^ (21 + (reduceDec m k).2) :=
            lt_of_lt_of_le (natDigits_lt _)
              (Nat.pow_le_pow_right (by omega) (by omega))
          calc (reduceDec m k).1 ≤ ((reduceDec m k).1.natAbs : Int) := Int.le_natAbs
            _ < ((10 ^ (21 + (reduceDec m k).2) : Nat) : Int) := by
                exact_mod_cast hnat
            _ = 10 ^ (21 + (reduceDec m k).2) := by push_cast; ring
      · rintro ⟨hq, _⟩
        exact hq
  rw [← hcenter]
  by_cases hd : durationTest (jsNumToString (some (m, k))) = true <;> simp [hd]

/-- Witness for C2: the duration 9.75 (= 975/100) draws no duration error;
    its quarter witness is 39/4 and it is far below 1e21. -/
theorem validateTask_duration_iff_witness :
    (Validators.validateTask { duration := some (975, 2) }).duration = none :=
  (validateTask_duration_iff { duration := some (975, 2) } 975 2 rfl).mpr
    ⟨⟨39, by norm_num⟩, by norm_num⟩

/-! ## C4 — the duplicate-word back-reference -/

/-- Case-insensitively equal texts have equal length. -/
theorem foldEqL_length {v w : List Char} (h : foldEqL v w = true) :
    v.length = w.length := by
  unfold foldEqL at h
  rw [beq_iff_eq] at h
  simpa using congrArg List.length h

/-- A case-insensitive copy of an all-word-character text is itself all word
    characters. -/
theorem foldEqL_word_mem {v w : List Char} (h : foldEqL v w = true)
    (hw : ∀ c ∈ w, wordChar c = true) : ∀ c ∈ v, wordChar c = true := by
  unfold foldEqL at h
  rw [beq_iff_eq] at h
  intro c hc
  have h1 : foldN c.toNat ∈ w.map (fun x => foldN x.toNat) := by
    rw [← h]
    exact List.mem_map_of_mem _ hc
  obtain ⟨d, hd, hde⟩ := List.mem_map.mp h1
  rw [← wordChar_eq_of_foldN_eq hde]
  exact hw d hd

/-- The trailing boundary test, spelled as the claim does. -/
theorem bAfter_iff (b : List Char) :
    bAfter b = true ↔ (b = [] ∨ ∃ c bs, b = c :: bs ∧ wordChar c = false) := by
  cases b with
  | nil => simp [bAfter]
  | cons c bs =>
    simp only [bAfter, Bool.not_eq_true']
    constructor
    · intro h
      exact Or.inr ⟨c, bs, rfl, h⟩
    · rintro (h | ⟨c2, bs2, heq, hw⟩)
      · exact absurd h (by simp)
      · injection heq with h1 _
        rw [h1]
        exact hw

/-- One anchored attempt of `\b(\w+)\s+\1\b` succeeds exactly when the input
    splits as word, whitespace, case-insensitive copy, boundary. -/
theorem tryDupAt_iff (s : List Char) :
    tryDupAt s = true ↔
      ∃ w sp v b, s = w ++ (sp ++ (v ++ b)) ∧ w ≠ [] ∧
        (∀ c ∈ w, wordChar c = true) ∧ sp ≠ [] ∧
        (∀ c ∈ sp, jsIsSpace c = true) ∧ foldEqL v w = true ∧ bAfter b = true := by
  constructor
  · intro h
    unfold tryDupAt at h
    rw [Bool.and_eq_true, Bool.and_eq_true, Bool.and_eq_true] at h
    obtain ⟨⟨⟨h1, h2⟩, h3⟩, h4⟩ := h
    refine ⟨s.takeWhile wordChar,
      (s.dropWhile wordChar).takeWhile jsIsSpace,
      ((s.dropWhile wordChar).dropWhile jsIsSpace).take (s.takeWhile wordChar).length,
      ((s.dropWhile wordChar).dropWhile jsIsSpace).drop (s.takeWhile wordChar).length,
      ?_, ?_, ?_, ?_, ?_, h3, h4⟩
    · rw [List.take_append_drop, List.takeWhile_append_dropWhile,
        List.takeWhile_append_dropWhile]
    · intro h0
      rw [h0] at h1
      exact absurd h1 (by simp)
    · intro c hc
      exact List.mem_takeWhile_imp hc
    · intro h0
      rw [h0] at h2
      exact absurd h2 (by simp)
    · intro c hc
      exact List.mem_takeWhile_imp hc
  · rintro ⟨w, sp, v, b, rfl, hw0, hwall, hsp0, hspall, hfe, hba⟩
    have hsphead : ∀ c bs, sp ++ (v ++ b) = c :: bs → wordChar c = false := by
      intro c bs hcb
      cases sp with
      | nil => exact absurd rfl hsp0
      | cons c0 sptl =>
        injection hcb with hc0 _
        rw [← hc0]
        exact space_not_word (hspall c0 (by simp))
    obtain ⟨ht1, hd1⟩ := takeWhile_dropWhile_app (p := wordChar) hwall hsphead
    have hv0 : v ≠ [] := by
      intro h0
      have := foldEqL_length hfe
      rw [h0] at this
      simp at this
      exact hw0 (List.eq_nil_of_length_eq_zero this.symm)
    have hvhead : ∀ c bs, v ++ b = c :: bs → jsIsSpace c = false := by
      intro c bs hcb
      cases v with
      | nil => exact absurd rfl hv0
      | cons c0 vtl =>
        injection hcb with hc0 _
        rw [← hc0]
        exact word_not_space (foldEqL_word_mem hfe hwall c0 (by simp))
    obtain ⟨ht2, hd2⟩ := takeWhile_dropWhile_app (p := jsIsSpace) hspall hvhead
    have hlen : w.length = v.length := (foldEqL_length hfe).symm
    unfold tryDupAt
    dsimp only
    rw [ht1, hd1, ht2, hd2, hlen, List.take_left, List.drop_left]
    simp [List.isEmpty_iff, hw0, hsp0, hfe, hba]

/-- The scan of `dupScan` fires exactly when some split point carries a
    left boundary (relative to the threaded previous character) and a
    successful anchored attempt. -/
theorem dupScan_iff : ∀ (s : List Char) (prev : Option Char),
    dupScan prev s = true ↔
      ∃ a rest, s = a ++ rest ∧ tryDupAt rest = true ∧
        ((a = [] ∧ bBefore prev = true) ∨
          (∃ p, a.getLast? = some p ∧ wordChar p = false))
  | [], prev => by
    simp only [dupScan]
    constructor
    · intro h
      exact absurd h (by simp)
    · rintro ⟨a, rest, heq, htry, _⟩
      obtain ⟨ha, hrest⟩ := List.append_eq_nil.mp heq.symm
      rw [hrest] at htry
      exact absurd htry (by decide)
  | c :: cs, prev => by
    simp only [dupScan, Bool.or_eq_true, Bool.and_eq_true]
    constructor
    · rintro (⟨hb, ht⟩ | hrec)
      · exact ⟨[], c :: cs, rfl, ht, Or.inl ⟨rfl, hb⟩⟩
      · obtain ⟨a2, rest, heq, htry, hcond⟩ := (dupScan_iff cs (some c)).mp hrec
        refine ⟨c :: a2, rest, by rw [heq]; rfl, htry, Or.inr ?_⟩
        rcases hcond with ⟨rfl, hbc⟩ | ⟨p, hl, hw⟩
        · exact ⟨c, by simp, by simpa [bBefore] using hbc⟩
        · have ha2 : a2 ≠ [] := by
            intro h0
            rw [h0] at hl
            simp at hl
          cases a2 with
          | nil => exact absurd rfl ha2
          | cons a0 as =>
            exact ⟨p, by rw [List.getLast?_cons_cons]; exact hl, hw⟩
    · rintro ⟨a, rest, heq, htry, hcond⟩
      cases a with
      | nil =>
        left
        rw [List.nil_append] at heq
        rw [← heq] at htry
        refine ⟨?_, htry⟩
        rcases hcond with ⟨_, hb⟩ | ⟨p, hl, _⟩
        · exact hb
        · exact absurd hl (by simp)
      | cons a0 as =>
        right
        injection heq with h1 h2
        apply (dupScan_iff cs (some c)).mpr
        refine ⟨as, rest, h2, htry, ?_⟩
        rcases hcond with ⟨habs, _⟩ | ⟨p, hl, hw⟩
        · exact absurd habs (by simp)
        · cases as with
          | nil =>
            left
            refine ⟨rfl, ?_⟩
            have hpa : a0 = p := by simpa using hl
            rw [h1, hpa]
            simp [bBefore, hw]
          | cons a1 as1 =>
            right
            rw [List.getLast?_cons_cons] at hl
            exact ⟨p, hl, hw⟩

/-- The executable scan coincides with the claim's wording: the title
    contains two identical complete words (case-insensitive) separated only
    by whitespace. -/
theorem duplicateWordsTest_iff (s : List Char) :
    duplicateWordsTest s = true ↔ SpecDupWords s := by
  unfold duplicateWordsTest
  rw [dupScan_iff]
  constructor
  · rintro ⟨a, rest, heq, htry, hcond⟩
    obtain ⟨w, sp, v, b, heq2, hw0, hwall, hsp0, hspall, hfe, hba⟩ :=
      (tryDupAt_iff rest).mp htry
    refine ⟨a, w, sp, v, b, ?_, hw0, hwall, hsp0, hspall, hfe, ?_, ?_⟩
    · rw [heq, heq2]
      simp [List.append_assoc]
    · rcases hcond with ⟨rfl, _⟩ | ⟨p, hl, hw⟩
      · exact Or.inl rfl
      · exact Or.inr ⟨p, hl, hw⟩
    · exact (bAfter_iff b).mp hba
  · rintro ⟨a, w, sp, v, b, heq, hw0, hwall, hsp0, hspall, hfe, hacond, hbcond⟩
    refine ⟨a, w ++ (sp ++ (v ++ b)), ?_, ?_, ?_⟩
    · rw [heq]
      simp [List.append_assoc]
    · exact (tryDupAt_iff _).mpr
        ⟨w, sp, v, b, rfl, hw0, hwall, hsp0, hspall, hfe, (bAfter_iff b).mpr hbcond⟩
    · rcases hacond with rfl | ⟨p, hl, hw⟩
      · exact Or.inl ⟨rfl, rfl⟩
      · exact Or.inr ⟨p, hl, hw⟩

/-- C4: once the presence and padding rules pass, `validateTask` reports the
    duplicate-word error exactly when the title contains two identical
    complete words (case-insensitive) separated only by whitespace; and when
    presence or padding already failed, the duplicate-word message is never
    the reported title error. -/
theorem validateTask_duplicateWords_iff :
    (∀ (t : TaskRec) (s : List Char), Validators.activityTitleOf t = s →
      jsTrim s ≠ [] → titleTest s = true →
      ((Validators.validateTask t).title = some Validators.titleDupMsg ↔
        SpecDupWords s)) ∧
    (∀ t : TaskRec,
      (jsTrim (Validators.activityTitleOf t) = [] ∨
        titleTest (Validators.activityTitleOf t) = false) →
      (Validators.validateTask t).title ≠ some Validators.titleDupMsg) := by
  constructor
  · intro t s hs htrim hpat
    have hsne : s ≠ [] := by
      intro h
      subst h
      exact htrim rfl
    have key : (Validators.validateTask t).title =
        (if !titleTest s then some Validators.titlePaddingMsg
         else if duplicateWordsTest s then some Validators.titleDupMsg else none) := by
      simp [Validators.validateTask, hs, hsne, htrim]
    rw [key, if_neg (by simp [hpat]), ← duplicateWordsTest_iff]
    by_cases hdup : duplicateWordsTest s
    · simp [hdup]
    · simp [hdup]
  · intro t hfail
    by_cases hne : Validators.activityTitleOf t = []
    · have key : (Validators.validateTask t).title = some Validators.titleRequiredMsg := by
        simp [Validators.validateTask, hne]
      rw [key]
      intro h
      injection h with h1
      exact absurd h1 (by decide)
    · rcases hfail with htr | hpat
      · have key : (Validators.validateTask t).title = some Validators.titleRequiredMsg := by
          simp [Validators.validateTask, hne, htr]
        rw [key]
        intro h
        injection h with h1
        exact absurd h1 (by decide)
      · by_cases htr : jsTrim (Validators.activityTitleOf t) = []
        · have key : (Validators.validateTask t).title = some Validators.titleRequiredMsg := by
            simp [Validators.validateTask, hne, htr]
          rw [key]
          intro h
          injection h with h1
          exact absurd h1 (by decide)
        · have key : (Validators.validateTask t).title = some Validators.titlePaddingMsg := by
            simp [Validators.validateTask, hne, htr, hpat]
          rw [key]
          intro h
          injection h with h1
          exact absurd h1 (by decide)

/-- Witness for C4: "Gym Gym" passes presence and padding and is reported as
    a duplicate word, with the explicit split `[] ++ "Gym" ++ " " ++ "Gym"
    ++ []`. -/
theorem validateTask_duplicateWords_iff_witness :
    (Validators.validateTask { title := "Gym Gym".data }).title =
      some Validators.titleDupMsg :=
  (validateTask_duplicateWords_iff.1 { title := "Gym Gym".data } ("Gym Gym".data)
    rfl (by decide) (by decide)).mpr
    ⟨[], "Gym".data, [' '], "Gym".data, [], by decide, by decide, by decide,
      by decide, by decide, by decide, Or.inl rfl, Or.inl rfl⟩

/-! ## C7 — export / import round-trip -/

/-- Skipping whitespace passes over an all-whitespace prefix. -/
theorem skipJWs_ws_append {ws X : List Char} (h : ∀ c ∈ ws, jsonWs c = true) :
    skipJWs (ws ++ X) = skipJWs X := by
  induction ws with
  | nil => rfl
  | cons c cs ih =>
    have hc : jsonWs c = true := h c (by simp)
    show skipJWs (c :: (cs ++ X)) = _
    unfold skipJWs
    rw [List.dropWhile_cons, if_pos hc]
    exact ih (fun x hx => h x (by simp [hx]))

/-- Skipping whitespace stops at a non-whitespace head. -/
theorem skipJWs_cons_nonws {c : Char} {X : List Char} (h : jsonWs c = false) :
    skipJWs (c :: X) = c :: X := by
  unfold skipJWs
  rw [List.dropWhile_cons, if_neg (by simp [h])]

/-- Indentation runs are whitespace. -/
theorem indSp_all_ws (n : Nat) : ∀ c ∈ indSp n, jsonWs c = true := by
  intro c hc
  obtain rfl : c = ' ' := List.eq_of_mem_replicate hc
  rfl

/-- Whitespace prefixes are invisible to the value parser. -/
theorem parseJ_ws_append (fuel : Nat) {ws : List Char} (X : List Char)
    (h : ∀ c ∈ ws, jsonWs c = true) :
    parseJ fuel (ws ++ X) = parseJ fuel X := by
  cases fuel with
  | zero => rfl
  | succ f =>
    simp only [parseJ, skipJWs_ws_append h]

/-- Whitespace prefixes are invisible to the element parser. -/
theorem parseItems_ws_append (fuel : Nat) {ws : List Char} (X : List Char)
    (h : ∀ c ∈ ws, jsonWs c = true) :
    parseItems fuel (ws ++ X) = parseItems fuel X := by
  cases fuel with
  | zero => rfl
  | succ f =>
    simp only [parseItems, parseJ_ws_append f X h]

/-- Whitespace prefixes are invisible to the member parser. -/
theorem parseFields_ws_append (fuel : Nat) {ws : List Char} (X : List Char)
    (h : ∀ c ∈ ws, jsonWs c = true) :
    parseFields fuel (ws ++ X) = parseFields fuel X := by
  cases fuel with
  | zero => rfl
  | succ f =>
    simp only [parseFields, skipJWs_ws_append h]

/-- Hex digits round-trip through their character. -/
theorem hexVal_hexDig {d : Nat} (h : d < 16) : hexVal (hexDig d) = some d := by
  interval_cases d <;> decide

/-- Each escape a character produces consumes exactly one fuel step and
    parses back to that character, continuing with the rest of the body. -/
theorem parseStrBody_escape (c : Char) (f : Nat) (X : List Char) :
    parseStrBody (f + 1) (escapeChar c ++ X) =
      (parseStrBody f X).map (fun p => (c :: p.1, p.2)) := by
  by_cases h1 : c = '"'
  · subst h1; rfl
  by_cases h2 : c = '\\'
  · subst h2; rfl
  by_cases h3 : c = '\x08'
  · subst h3; rfl
  by_cases h4 : c = '\x0c'
  · subst h4; rfl
  by_cases h5 : c = '\n'
  · subst h5; rfl
  by_cases h6 : c = '\r'
  · subst h6; rfl
  by_cases h7 : c = '\t'
  · subst h7; rfl
  by_cases h8 : c.toNat < 32
  · have he : escapeChar c =
        ['\\', 'u', '0', '0', hexDig (c.toNat / 16), hexDig (c.toNat % 16)] := by
      simp [escapeChar, h1, h2, h3, h4, h5, h6, h7, h8]
    rw [he]
    show parseStrBody (f + 1) ('\\' :: 'u' :: '0' :: '0' ::
        hexDig (c.toNat / 16) :: hexDig (c.toNat % 16) :: X) = _
    rw [parseStrBody.eq_def]
    simp only [hexVal_hexDig (show c.toNat / 16 < 16 by omega),
      hexVal_hexDig (show c.toNat % 16 < 16 by omega),
      show hexVal '0' = some 0 from rfl]
    rw [show ((0 * 16 + 0) * 16 + c.toNat / 16) * 16 + c.toNat % 16 = c.toNat from
      by omega]
    rw [if_pos (Or.inl (by omega : c.toNat < 55296)), Char.ofNat_toNat]
    simp
  · have he : escapeChar c = [c] := by
      simp [escapeChar, h1, h2, h3, h4, h5, h6, h7, h8]
    rw [he]
    show parseStrBody (f + 1) (c :: X) = _
    rw [parseStrBody.eq_def]
    dsimp only
    rw [if_neg h1, if_neg h2, if_neg (by omega : ¬c.toNat < 32)]

/-- Every character escapes to at least one character. -/
theorem escapeChar_len_pos (c : Char) : 1 ≤ (escapeChar c).length := by
  unfold escapeChar
  repeat' split
  all_goals simp

/-- Escaping never shortens a string. -/
theorem escapeStr_length_ge (s : List Char) : s.length ≤ (escapeStr s).length := by
  induction s with
  | nil => simp
  | cons c s2 ih =>
    show s2.length + 1 ≤ (escapeChar c ++ escapeStr s2).length
    have := escapeChar_len_pos c
    simp only [List.length_append]
    omega

/-- The string-body codec round-trip: an escaped body followed by the closing
    quote parses back to the original characters, under any fuel larger than
    the character count. -/
theorem parseStrBody_escapeStr (s rest : List Char) (fuel : Nat)
    (hf : s.length < fuel) :
    parseStrBody fuel (escapeStr s ++ '"' :: rest) = some (s, rest) := by
  induction s generalizing fuel with
  | nil =>
    obtain ⟨f, rfl⟩ : ∃ f, fuel = f + 1 := ⟨fuel - 1, by omega⟩
    show parseStrBody (f + 1) ('"' :: rest) = some ([], rest)
    rfl
  | cons c s2 ih =>
    obtain ⟨f, rfl⟩ : ∃ f, fuel = f + 1 := ⟨fuel - 1, by omega⟩
    show parseStrBody (f + 1) ((escapeChar c ++ escapeStr s2) ++ '"' :: rest) = _
    rw [List.append_assoc, parseStrBody_escape,
      ih f (by simp only [List.length_cons] at hf; omega)]
    rfl

/-- The codec round-trip at the fuel the parser actually passes: one unit
    per remaining character. -/
theorem parseStrBody_atQuote (s rest : List Char) :
    parseStrBody ((escapeStr s ++ '"' :: rest).length + 1)
      (escapeStr s ++ '"' :: rest) = some (s, rest) :=
  parseStrBody_escapeStr s rest _
    (by have := escapeStr_length_ge s
        simp only [List.length_append, List.length_cons]
        omega)

/-- A number delimiter is neither a digit, a point, nor an exponent
    marker. -/
theorem numDelim_facts {c : Char} {bs : List Char} (h : numDelim (c :: bs) = true) :
    isDigitCh c = false ∧ ¬(c = '.') ∧ ¬(c = 'e') ∧ ¬(c = 'E') := by
  simp only [numDelim, Bool.not_eq_true', Bool.or_eq_false_iff,
    decide_eq_false_iff_not] at h
  exact ⟨h.1.1.1, h.1.1.2, h.1.2, h.2⟩

/-- Trailing-zero stripping never increases the exponent. -/
theorem reduceDec_snd_le : ∀ (k : Nat) (m : Int), (reduceDec m k).2 ≤ k
  | 0, _ => le_refl 0
  | k + 1, m => by
    unfold reduceDec
    by_cases h : m % 10 = 0
    · rw [if_pos h]
      exact le_trans (reduceDec_snd_le k (m / 10)) (by omega)
    · rw [if_neg h]

/-- A pair already in canonical form reduces to itself. -/
theorem reduceDec_self {m : Int} {k : Nat} (h : k = 0 ∨ ¬(m % 10 = 0)) :
    reduceDec m k = (m, k) := by
  cases k with
  | zero => rfl
  | succ k0 =>
    have h2 : ¬(m % 10 = 0) := by
      rcases h with h | h
      · exact absurd h (by omega)
      · exact h
    unfold reduceDec
    rw [if_neg h2]

/-- A self-reducing pair is in canonical form. -/
theorem reduced_of_canonical {m : Int} {k : Nat} (h : reduceDec m k = (m, k)) :
    k = 0 ∨ ¬(m % 10 = 0) := by
  cases k with
  | zero => exact Or.inl rfl
  | succ k0 =>
    right
    intro hm0
    have hle : (reduceDec m (k0 + 1)).2 ≤ k0 := by
      unfold reduceDec
      rw [if_pos hm0]
      exact reduceDec_snd_le k0 (m / 10)
    rw [h] at hle
    simp at hle

/-- A digit character is not a minus sign. -/
theorem digit_ne_minus {c : Char} (h : isDigitCh c = true) : ¬(c = '-') := by
  intro hce
  rw [hce] at h
  exact absurd h (by decide)

/-- A digit expansion starts with some digit character. -/
theorem natDigits_cons (n : Nat) :
    ∃ c t, natDigits n = c :: t ∧ isDigitCh c = true := by
  cases hct : natDigits n with
  | nil => exact absurd hct (natDigits_ne_nil n)
  | cons c t =>
    exact ⟨c, t, rfl, natDigits_all_digit n c (by rw [hct]; simp)⟩

/-- A non-negative decimal rendering starts with some digit character. -/
theorem decRenderN_cons (n k : Nat) :
    ∃ c t, decRenderN n k = c :: t ∧ isDigitCh c = true := by
  unfold decRenderN
  by_cases hk : k = 0
  · rw [if_pos hk]
    exact natDigits_cons n
  · rw [if_neg hk]
    obtain ⟨c, t, hct, hcd⟩ := natDigits_cons (n / 10 ^ k)
    exact ⟨c, t ++ '.' :: zeroPad k (natDigits (n % 10 ^ k)), by rw [hct]; rfl, hcd⟩

/-- A fraction cannot start at a delimiter. -/
theorem parseFrac_delim (n : Nat) (rest : List Char) (h : numDelim rest = true) :
    parseFrac n rest = some ((n, 0), rest) := by
  cases rest with
  | nil => rfl
  | cons c bs =>
    unfold parseFrac
    dsimp only
    rw [if_neg (numDelim_facts h).2.1]

/-- An exponent cannot start at a delimiter. -/
theorem parseExpPart_delim (rest : List Char) (h : numDelim rest = true) :
    parseExpPart rest = some (0, rest) := by
  cases rest with
  | nil => rfl
  | cons c bs =>
    unfold parseExpPart
    dsimp only
    rw [if_neg (by
      simp [(numDelim_facts h).2.2.1, (numDelim_facts h).2.2.2])]

/-- A zero exponent leaves the scanned pair unchanged. -/
theorem applyExp_zero (n k : Nat) : applyExp n k 0 = (n, k) := by
  unfold applyExp
  cases k with
  | zero => simp
  | succ k0 =>
    rw [if_neg (by omega)]
    simp

/-- The integer-part scanner inverts the digit expansion whenever the next
    character is not a digit (a zero expansion takes the lone-zero branch,
    a positive one the nonzero-leading-digit branch). -/
theorem parseIntPart_natDigits (q : Nat) (tail : List Char)
    (htail : ∀ c bs, tail = c :: bs → isDigitCh c = false) :
    parseIntPart (natDigits q ++ tail) = some (q, tail) := by
  by_cases hq : q = 0
  · subst hq
    show parseIntPart ('0' :: tail) = some (0, tail)
    rfl
  · obtain ⟨c, t, hct, h49, h57⟩ := natDigits_head_pos q hq
    obtain ⟨ht, hd⟩ := takeWhile_dropWhile_app (p := isDigitCh)
      (natDigits_all_digit q) htail
    rw [hct, List.cons_append]
    unfold parseIntPart
    dsimp only
    rw [if_neg (show ¬c = '0' by
        intro h0
        rw [h0] at h49
        exact absurd h49 (by decide)),
      if_pos (show isDigitCh c = true by
        simp only [isDigitCh, Bool.and_eq_true, decide_eq_true_eq]
        omega)]
    rw [← List.cons_append, ← hct, ht, hd, digitsToNat_natDigits]

/-- The unsigned number parser inverts the unsigned decimal rendering
    whenever the remainder cannot extend the number. -/
theorem parseNumN_decRenderN (n k : Nat) (rest : List Char)
    (h : numDelim rest = true) :
    parseNumN (decRenderN n k ++ rest) = some ((n, k), rest) := by
  have hrest_head : ∀ c bs, rest = c :: bs → isDigitCh c = false := by
    intro c bs hcb
    rw [hcb] at h
    exact (numDelim_facts h).1
  rcases Nat.eq_zero_or_pos k with hk0 | hkpos
  · subst hk0
    unfold decRenderN
    rw [if_pos rfl]
    unfold parseNumN
    rw [parseIntPart_natDigits n rest hrest_head]
    dsimp only
    rw [parseFrac_delim n rest h]
    dsimp only
    rw [parseExpPart_delim rest h]
    dsimp only
    rw [applyExp_zero]
  · have hkne : k ≠ 0 := by omega
    unfold decRenderN
    rw [if_neg hkne]
    have hflt : n % 10 ^ k < 10 ^ k := Nat.mod_lt _ (by positivity)
    have hlenP : (zeroPad k (natDigits (n % 10 ^ k))).length = k :=
      zeroPad_length (natDigits_length_le k _ hkpos hflt)
    rw [List.append_assoc, List.cons_append]
    unfold parseNumN
    rw [parseIntPart_natDigits (n / 10 ^ k) _ (by
      intro c bs hcb
      injection hcb with hc1 _
      rw [← hc1]
      decide)]
    dsimp only
    unfold parseFrac
    dsimp only
    rw [if_pos rfl]
    obtain ⟨ht2, hd2⟩ := takeWhile_dropWhile_app (p := isDigitCh)
      (a := zeroPad k (natDigits (n % 10 ^ k))) (b := rest)
      (zeroPad_all_digit (natDigits_all_digit _)) hrest_head
    rw [ht2, hd2]
    rw [if_neg (by
      simp only [List.isEmpty_iff]
      intro h0
      rw [h0] at hlenP
      simp at hlenP
      omega)]
    rw [digitsToNat_zeroPad, digitsToNat_natDigits, hlenP]
    dsimp only
    rw [parseExpPart_delim rest h]
    dsimp only
    rw [show n / 10 ^ k * 10 ^ k + n % 10 ^ k = n from Nat.div_add_mod' n (10 ^ k),
      applyExp_zero]

/-- The signed number parser inverts the signed canonical rendering. -/
theorem parseNum_decRender (m : Int) (k : Nat) (hred : k = 0 ∨ ¬(m % 10 = 0))
    (rest : List Char) (h : numDelim rest = true) :
    parseNum (decRender m k ++ rest) = some ((m, k), rest) := by
  unfold decRender
  by_cases hm : m < 0
  · rw [if_pos hm]
    show parseNum ('-' :: (decRenderN m.natAbs k ++ rest)) = _
    rw [parseNum.eq_def]
    dsimp only
    rw [if_pos rfl, parseNumN_decRenderN m.natAbs k rest h]
    dsimp only [Option.map]
    have hcast : -((m.natAbs : Int)) = m := by omega
    rw [hcast, reduceDec_self hred]
  · rw [if_neg hm]
    obtain ⟨c, t, hct, hcd⟩ := decRenderN_cons m.natAbs k
    rw [hct]
    show parseNum (c :: (t ++ rest)) = _
    rw [parseNum.eq_def]
    dsimp only
    rw [if_neg (digit_ne_minus hcd), ← List.cons_append, ← hct,
      parseNumN_decRenderN m.natAbs k rest h]
    dsimp only [Option.map]
    have hcast : ((m.natAbs : Int)) = m := by omega
    rw [hcast, reduceDec_self hred]

/-- The exponent scanner reads back a rendered exponent suffix. -/
theorem parseExpPart_suffix (e : Int) (rest : List Char)
    (h : numDelim rest = true) :
    parseExpPart ('e' :: (expSuffix e ++ rest)) = some (e, rest) := by
  have hrest_head : ∀ c bs, rest = c :: bs → isDigitCh c = false := by
    intro c bs hcb
    rw [hcb] at h
    exact (numDelim_facts h).1
  obtain ⟨ht, hd⟩ := takeWhile_dropWhile_app (p := isDigitCh)
    (natDigits_all_digit e.natAbs) hrest_head
  unfold expSuffix
  by_cases he : 0 ≤ e
  · rw [if_pos he, List.cons_append]
    simp only [parseExpPart, ht, hd]
    rw [if_pos (by decide)]
    rw [if_neg (by simp [List.isEmpty_iff, natDigits_ne_nil])]
    rw [digitsToNat_natDigits]
    rw [show ((e.natAbs : Nat) : Int) = e from by omega]
  · rw [if_neg he, List.cons_append]
    simp only [parseExpPart, ht, hd]
    rw [if_pos (by decide)]
    rw [if_neg (by simp [List.isEmpty_iff, natDigits_ne_nil])]
    rw [digitsToNat_natDigits]
    rw [show -((e.natAbs : Nat) : Int) = e from by omega]

/-- The unsigned parser reads a scientific mantissa and exponent into the
    scanned mantissa pair scaled by the exponent. -/
theorem parseNumN_sci (d : Char) (dtl : List Char) (E : Int) (rest : List Char)
    (hd49 : 49 ≤ d.toNat) (hd57 : d.toNat ≤ 57)
    (hdtl : ∀ x ∈ dtl, isDigitCh x = true)
    (h : numDelim rest = true) :
    parseNumN (expDigits (d :: dtl) ++ 'e' :: (expSuffix E ++ rest)) =
      some (applyExp (digitsToNat (d :: dtl)) dtl.length E, rest) := by
  have hd_dig : isDigitCh d = true := by
    simp only [isDigitCh, Bool.and_eq_true, decide_eq_true_eq]
    omega
  have hd0 : ¬ d = '0' := by
    intro h0
    rw [h0] at hd49
    exact absurd hd49 (by decide)
  cases dtl with
  | nil =>
    show parseNumN (d :: 'e' :: (expSuffix E ++ rest)) = _
    unfold parseNumN parseIntPart
    dsimp only
    rw [if_neg hd0, if_pos hd_dig]
    rw [List.takeWhile_cons, if_pos hd_dig, List.takeWhile_cons,
      if_neg (by decide), List.dropWhile_cons, if_pos hd_dig,
      List.dropWhile_cons, if_neg (by decide)]
    dsimp only
    unfold parseFrac
    dsimp only
    rw [if_neg (by decide)]
    dsimp only
    rw [parseExpPart_suffix E rest h]
    rfl
  | cons e2 dtl2 =>
    show parseNumN (d :: '.' ::
      ((e2 :: dtl2) ++ 'e' :: (expSuffix E ++ rest))) = _
    unfold parseNumN parseIntPart
    dsimp only
    rw [if_neg hd0, if_pos hd_dig]
    rw [List.takeWhile_cons, if_pos hd_dig, List.takeWhile_cons,
      if_neg (by decide), List.dropWhile_cons, if_pos hd_dig,
      List.dropWhile_cons, if_neg (by decide)]
    dsimp only
    unfold parseFrac
    dsimp only
    rw [if_pos rfl]
    obtain ⟨ht2, hd2⟩ := takeWhile_dropWhile_app (p := isDigitCh)
      (a := e2 :: dtl2) (b := 'e' :: (expSuffix E ++ rest)) hdtl
      (fun c bs hcb => by
        injection hcb with h1 _
        rw [← h1]
        decide)
    rw [ht2, hd2]
    rw [if_neg (by simp)]
    dsimp only
    rw [parseExpPart_suffix E rest h]
    dsimp only
    rw [show digitsToNat [d] * 10 ^ (e2 :: dtl2).length + digitsToNat (e2 :: dtl2) =
        digitsToNat (d :: e2 :: dtl2) from by
      rw [show (d :: e2 :: dtl2) = [d] ++ (e2 :: dtl2) from rfl, digitsToNat_append]]

/-- Scaling the scanned mantissa by the rendered exponent recovers the
    reduced decimal pair. -/
theorem applyExp_recover (N z k L : Nat) (hL : 1 ≤ L)
    (hred : k = 0 ∨ ¬((N * 10 ^ z) % 10 = 0)) :
    applyExp N (L - 1) (((L + z : Nat) : Int) - k - 1) = (N * 10 ^ z, k) := by
  unfold applyExp
  by_cases hcase : (((L - 1 : Nat)) : Int) ≤ ((L + z : Nat) : Int) - k - 1
  · rw [if_pos hcase]
    have hk0 : k = 0 := by
      rcases hred with h0 | hmod
      · exact h0
      · by_contra hk
        apply hmod
        have hz1 : 1 ≤ z := by omega
        obtain ⟨t, ht⟩ : ∃ t, 10 ^ z = 10 * t :=
          ⟨10 ^ (z - 1), by
            rw [← pow_succ']
            congr 1
            omega⟩
        rw [ht, show N * (10 * t) = (N * t) * 10 from by ring]
        exact Nat.mul_mod_left (N * t) 10
    have hh : ((((L + z : Nat) : Int) - k - 1) - (((L - 1 : Nat)) : Int)).toNat
        = z := by omega
    rw [hh, hk0]
  · rw [if_neg hcase]
    have hz0 : z = 0 := by
      rcases hred with h0 | hmod
      · omega
      · by_contra hz
        apply hmod
        have hz1 : 1 ≤ z := by omega
        obtain ⟨t, ht⟩ : ∃ t, 10 ^ z = 10 * t :=
          ⟨10 ^ (z - 1), by
            rw [← pow_succ']
            congr 1
            omega⟩
        rw [ht, show N * (10 * t) = (N * t) * 10 from by ring]
        exact Nat.mul_mod_left (N * t) 10
    have hh : ((((L - 1 : Nat)) : Int) - (((L + z : Nat) : Int) - k - 1)).toNat
        = k := by omega
    rw [hh, hz0]
    simp

/-- The signed number parser inverts the exponent-notation rendering of a
    reduced nonzero decimal. -/
theorem parseNum_expRender (m : Int) (k : Nat) (hred : k = 0 ∨ ¬(m % 10 = 0))
    (hm0 : ¬ m = 0) (rest : List Char) (h : numDelim rest = true) :
    parseNum (expRender m k ++ rest) = some ((m, k), rest) := by
  obtain ⟨z, hspec⟩ := stripTZ_spec (natDigits m.natAbs)
  obtain ⟨c0, t0, hct0, h49, h57⟩ := natDigits_head_pos m.natAbs (by omega)
  have hDSne : stripTZ (natDigits m.natAbs) ≠ [] := by
    intro hnil
    rw [hnil, List.nil_append] at hspec
    rw [hspec] at hct0
    cases z with
    | zero => exact absurd hct0 (by simp)
    | succ z0 =>
      rw [List.replicate_succ] at hct0
      injection hct0 with h1 _
      rw [← h1] at h49
      exact absurd h49 (by decide)
  obtain ⟨d, dtl, hDS⟩ := List.exists_cons_of_ne_nil hDSne
  have hdhead : d = c0 := by
    have h2 := hspec
    rw [hDS, List.cons_append] at h2
    rw [hct0] at h2
    exact (List.head_eq_of_cons_eq h2).symm
  have hd49 : 49 ≤ d.toNat := by rw [hdhead]; exact h49
  have hd57 : d.toNat ≤ 57 := by rw [hdhead]; exact h57
  have hdtl : ∀ x ∈ dtl, isDigitCh x = true := by
    intro x hx
    refine natDigits_all_digit m.natAbs x ?_
    rw [hspec, hDS]
    simp [hx]
  have hval : m.natAbs = digitsToNat (d :: dtl) * 10 ^ z := by
    conv_lhs => rw [← digitsToNat_natDigits m.natAbs]
    rw [hspec, hDS, digitsToNat_append, List.length_replicate]
    rw [show digitsToNat (List.replicate z '0') = 0 from by
      have h0 := digitsToNat_replicate_zero z []
      simpa using h0]
    omega
  have hlen : (natDigits m.natAbs).length = (dtl.length + 1) + z := by
    rw [hspec, hDS]
    simp only [List.length_append, List.length_cons, List.length_replicate]
  have hAE : applyExp (digitsToNat (d :: dtl)) dtl.length
      (((natDigits m.natAbs).length : Int) - k - 1) = (m.natAbs, k) := by
    have hredN : k = 0 ∨ ¬((digitsToNat (d :: dtl) * 10 ^ z) % 10 = 0) := by
      rcases hred with h0 | hmod
      · exact Or.inl h0
      · right
        rw [← hval]
        omega
    have hrec := applyExp_recover (digitsToNat (d :: dtl)) z k (dtl.length + 1)
      (by omega) hredN
    rw [hlen, hval]
    exact hrec
  by_cases hm : m < 0
  · have hdr : expRender m k ++ rest =
        '-' :: (expDigits (d :: dtl) ++
          'e' :: (expSuffix (((natDigits m.natAbs).length : Int) - k - 1) ++ rest)) := by
      unfold expRender
      rw [if_pos hm, hDS]
      simp [List.append_assoc]
    rw [hdr]
    rw [parseNum.eq_def]
    dsimp only
    rw [if_pos rfl]
    rw [parseNumN_sci d dtl _ rest hd49 hd57 hdtl h]
    dsimp only [Option.map]
    rw [hAE]
    rw [show -((m.natAbs : Int)) = m from by omega, reduceDec_self hred]
  · have hdr : expRender m k ++ rest =
        expDigits (d :: dtl) ++
          'e' :: (expSuffix (((natDigits m.natAbs).length : Int) - k - 1) ++ rest) := by
      unfold expRender
      rw [if_neg hm, hDS]
      simp [List.append_assoc]
    have hdig : isDigitCh d = true := by
      simp only [isDigitCh, Bool.and_eq_true, decide_eq_true_eq]
      omega
    have hcons : expDigits (d :: dtl) ++
        'e' :: (expSuffix (((natDigits m.natAbs).length : Int) - k - 1) ++ rest) =
        d :: ((if dtl.isEmpty then [] else '.' :: dtl) ++
          'e' :: (expSuffix (((natDigits m.natAbs).length : Int) - k - 1) ++ rest)) := by
      unfold expDigits
      rw [List.cons_append]
    rw [hdr, hcons]
    rw [parseNum.eq_def]
    dsimp only
    rw [if_neg (digit_ne_minus hdig), ← hcons,
      parseNumN_sci d dtl _ rest hd49 hd57 hdtl h]
    dsimp only [Option.map]
    rw [hAE]
    rw [show ((m.natAbs : Int)) = m from by omega, reduceDec_self hred]

/-- A nonnegative nonzero exponent rendering starts with a digit. -/
theorem expRender_cons (m : Int) (k : Nat) (hm0 : ¬ m = 0) (hm : ¬ m < 0) :
    ∃ c t, expRender m k = c :: t ∧ isDigitCh c = true := by
  obtain ⟨z, hspec⟩ := stripTZ_spec (natDigits m.natAbs)
  obtain ⟨c0, t0, hct0, h49, h57⟩ := natDigits_head_pos m.natAbs (by omega)
  have hDSne : stripTZ (natDigits m.natAbs) ≠ [] := by
    intro hnil
    rw [hnil, List.nil_append] at hspec
    rw [hspec] at hct0
    cases z with
    | zero => exact absurd hct0 (by simp)
    | succ z0 =>
      rw [List.replicate_succ] at hct0
      injection hct0 with h1 _
      rw [← h1] at h49
      exact absurd h49 (by decide)
  obtain ⟨d, dtl, hDS⟩ := List.exists_cons_of_ne_nil hDSne
  have hdhead : d = c0 := by
    have h2 := hspec
    rw [hDS, List.cons_append] at h2
    rw [hct0] at h2
    exact (List.head_eq_of_cons_eq h2).symm
  refine ⟨d, (if dtl.isEmpty then [] else '.' :: dtl) ++
    'e' :: expSuffix (((natDigits m.natAbs).length : Int) - k - 1), ?_, ?_⟩
  · unfold expRender
    rw [if_neg hm, hDS, List.nil_append]
    unfold expDigits
    rw [List.cons_append]
  · simp only [isDigitCh, Bool.and_eq_true, decide_eq_true_eq]
    rw [hdhead]
    omega

/-- A digit character is not JSON whitespace and not a closing bracket. -/
theorem digit_sep_facts {c : Char} (h : isDigitCh c = true) :
    jsonWs c = false ∧ ¬(c = ']') := by
  have h2 : 48 ≤ c.toNat ∧ c.toNat ≤ 57 := by
    simpa [isDigitCh, Bool.and_eq_true] using h
  constructor
  · simp only [jsonWs, Bool.or_eq_false_iff, decide_eq_false_iff_not]
    refine ⟨⟨⟨?_, ?_⟩, ?_⟩, ?_⟩ <;>
      (intro hce; rw [hce] at h2; revert h2; decide)
  · intro hce
    rw [hce] at h2
    revert h2
    decide

/-- Every value needs at least one unit of parser fuel. -/
theorem fuelNeed_pos : ∀ v : Json, 1 ≤ Json.fuelNeed v
  | .null => by simp only [Json.fuelNeed]; omega
  | .bool _ => by simp only [Json.fuelNeed]; omega
  | .num _ _ => by simp only [Json.fuelNeed]; omega
  | .str _ => by simp only [Json.fuelNeed]; omega
  | .arr .nil => by simp only [Json.fuelNeed]; omega
  | .arr (.cons x xs) => by simp only [Json.fuelNeed]; omega
  | .obj .nil => by simp only [Json.fuelNeed]; omega
  | .obj (.cons k v fs) => by simp only [Json.fuelNeed]; omega

/-- The element parser ignores a leading whitespace run. -/
theorem parseItems_skipJWs (f : Nat) (s : List Char) :
    parseItems f (skipJWs s) = parseItems f s := by
  conv_rhs => rw [← List.takeWhile_append_dropWhile jsonWs s]
  exact (parseItems_ws_append f _ (fun c hc => List.mem_takeWhile_imp hc)).symm

/-- The member parser ignores a leading whitespace run. -/
theorem parseFields_skipJWs (f : Nat) (s : List Char) :
    parseFields f (skipJWs s) = parseFields f s := by
  conv_rhs => rw [← List.takeWhile_append_dropWhile jsonWs s]
  exact (parseFields_ws_append f _ (fun c hc => List.mem_takeWhile_imp hc)).symm

/-- One parser step on a null literal. -/
theorem parseJ_null_step (f : Nat) (r : List Char) :
    parseJ (f + 1) ('n' :: 'u' :: 'l' :: 'l' :: r) = some (Json.null, r) := rfl

/-- One parser step on a true literal. -/
theorem parseJ_true_step (f : Nat) (r : List Char) :
    parseJ (f + 1) ('t' :: 'r' :: 'u' :: 'e' :: r) = some (Json.bool true, r) := rfl

/-- One parser step on a false literal. -/
theorem parseJ_false_step (f : Nat) (r : List Char) :
    parseJ (f + 1) ('f' :: 'a' :: 'l' :: 's' :: 'e' :: r) =
      some (Json.bool false, r) := rfl

/-- One parser step on an opening quote. -/
theorem parseJ_str_step (f : Nat) (X : List Char) :
    parseJ (f + 1) ('"' :: X) =
      (parseStrBody (X.length + 1) X).map (fun p => (Json.str p.1, p.2)) := rfl

/-- One parser step on a minus sign. -/
theorem parseJ_neg_step (f : Nat) (X : List Char) :
    parseJ (f + 1) ('-' :: X) =
      (parseNum ('-' :: X)).map (fun p => (Json.num p.1.1 p.1.2, p.2)) := rfl

/-- One parser step on an opening square bracket. -/
theorem parseJ_arr_step (f : Nat) (X : List Char) :
    parseJ (f + 1) ('[' :: X) =
      (match skipJWs X with
       | ']' :: r2 => some (Json.arr .nil, r2)
       | r2 =>
         match parseItems f r2 with
         | some (xs, r3) => some (Json.arr xs, r3)
         | none => none) := rfl

/-- One parser step on an opening brace. -/
theorem parseJ_obj_step (f : Nat) (X : List Char) :
    parseJ (f + 1) ('\x7b' :: X) =
      (match skipJWs X with
       | '\x7d' :: r2 => some (Json.obj .nil, r2)
       | r2 =>
         match parseFields f r2 with
         | some (fs, r3) => some (Json.obj fs, r3)
         | none => none) := rfl


/-- One parser step on a leading digit: the number branch is taken. -/
theorem parseJ_digit_step (f : Nat) (c : Char) (X : List Char)
    (hd : isDigitCh c = true) :
    parseJ (f + 1) (c :: X) =
      (parseNum (c :: X)).map (fun p => (Json.num p.1.1 p.1.2, p.2)) := by
  have h2 : 48 ≤ c.toNat ∧ c.toNat ≤ 57 := by
    simpa [isDigitCh, Bool.and_eq_true] using hd
  have hws : jsonWs c = false := (digit_sep_facts hd).1
  simp only [parseJ]
  rw [show skipJWs (c :: X) = c :: X from skipJWs_cons_nonws hws]
  split
  all_goals try (rename_i heq; exact absurd (List.head_eq_of_cons_eq heq) (by intro h1; rw [h1] at h2; revert h2; decide))
  all_goals try (rename_i heq; exact absurd heq (List.cons_ne_nil _ _))
  rename_i heq
  injection heq with hc1 hr1
  subst hc1
  subst hr1
  rw [if_pos (by rw [hd]; simp)]

/-- Every rendered value starts with a non-whitespace character that is not a
    closing square bracket. -/
theorem renderHead (ind : Nat) (v : Json) :
    ∃ c t, Json.render ind v = c :: t ∧ jsonWs c = false ∧ ¬(c = ']') := by
  cases v with
  | null => exact ⟨'n', ['u', 'l', 'l'], by simp only [Json.render],
      by decide, by decide⟩
  | bool b =>
    cases b with
    | true => exact ⟨'t', ['r', 'u', 'e'], by simp only [Json.render],
        by decide, by decide⟩
    | false => exact ⟨'f', ['a', 'l', 's', 'e'], by simp only [Json.render],
        by decide, by decide⟩
  | num m k =>
    simp only [Json.render, jsNumToString]
    by_cases hexp : jsExpNeeded (reduceDec m k).1 (reduceDec m k).2 = true
    · rw [if_pos hexp]
      unfold expRender
      by_cases hm : (reduceDec m k).1 < 0
      · rw [if_pos hm]
        exact ⟨'-', _, rfl, by decide, by decide⟩
      · rw [if_neg hm, List.nil_append]
        cases hDS : stripTZ (natDigits (reduceDec m k).1.natAbs) with
        | nil => exact ⟨'0', _, rfl, by decide, by decide⟩
        | cons d dtl =>
          have hd_dig : isDigitCh d = true := by
            obtain ⟨z, hspec⟩ := stripTZ_spec (natDigits (reduceDec m k).1.natAbs)
            refine natDigits_all_digit (reduceDec m k).1.natAbs d ?_
            rw [hspec, hDS]
            simp
          refine ⟨d, (if dtl.isEmpty then [] else '.' :: dtl) ++
              'e' :: expSuffix (((natDigits (reduceDec m k).1.natAbs).length : Int) -
                (reduceDec m k).2 - 1),
            ?_, (digit_sep_facts hd_dig).1, (digit_sep_facts hd_dig).2⟩
          unfold expDigits
          rw [List.cons_append]
    · rw [if_neg hexp]
      by_cases hm : (reduceDec m k).1 < 0
      · exact ⟨'-', decRenderN (reduceDec m k).1.natAbs (reduceDec m k).2,
          by unfold decRender; rw [if_pos hm], by decide, by decide⟩
      · obtain ⟨c, t, hct, hcd⟩ :=
          decRenderN_cons (reduceDec m k).1.natAbs (reduceDec m k).2
        exact ⟨c, t, by unfold decRender; rw [if_neg hm, hct],
          (digit_sep_facts hcd).1, (digit_sep_facts hcd).2⟩
  | str s =>
    exact ⟨'"', escapeStr s ++ ['"'], by simp only [Json.render, quoteStr],
      by decide, by decide⟩
  | arr xs =>
    cases xs with
    | nil => exact ⟨'[', [']'], by simp only [Json.render],
        by decide, by decide⟩
    | cons x xs2 =>
      exact ⟨'[', '\n' :: (Json.renderItems (ind + 2) x xs2 ++
          '\n' :: (indSp ind ++ [']'])),
        by simp only [Json.render], by decide, by decide⟩
  | obj fs =>
    cases fs with
    | nil => exact ⟨'\x7b', ['\x7d'], by simp only [Json.render],
        by decide, by decide⟩
    | cons key v2 fs2 =>
      exact ⟨'\x7b', '\n' :: (Json.renderFields (ind + 2) key v2 fs2 ++
          '\n' :: (indSp ind ++ ['\x7d'])),
        by simp only [Json.render], by decide, by decide⟩

/-- Renderings are never empty. -/
theorem render_len_pos (ind : Nat) (v : Json) : 1 ≤ (Json.render ind v).length := by
  obtain ⟨c, t, hct, _, _⟩ := renderHead ind v
  rw [hct]
  simp

mutual

/-- The rendering of a value is at least as long as its fuel need. -/
theorem renderLen_ge (ind : Nat) (v : Json) :
    Json.fuelNeed v ≤ (Json.render ind v).length := by
  cases v with
  | null => simp only [Json.fuelNeed, Json.render]; decide
  | bool b => cases b <;> (simp only [Json.fuelNeed, Json.render]; decide)
  | num m k =>
    have := render_len_pos ind (Json.num m k)
    simp only [Json.fuelNeed]
    omega
  | str s =>
    have := render_len_pos ind (Json.str s)
    simp only [Json.fuelNeed]
    omega
  | arr xs =>
    cases xs with
    | nil => simp only [Json.fuelNeed, Json.render]; decide
    | cons x xs2 =>
      have h1 := renderItemsLen_ge (ind + 2) x xs2
      simp only [Json.fuelNeed, Json.render, List.length_cons, List.length_append,
        indSp, List.length_replicate]
      omega
  | obj fs =>
    cases fs with
    | nil => simp only [Json.fuelNeed, Json.render]; decide
    | cons key v2 fs2 =>
      have h1 := renderFieldsLen_ge (ind + 2) key v2 fs2
      simp only [Json.fuelNeed, Json.render, List.length_cons, List.length_append,
        indSp, List.length_replicate]
      omega
termination_by sizeOf v

/-- The rendering of a non-empty element list is at least one shorter than its
    fuel need. -/
theorem renderItemsLen_ge (ind : Nat) (x : Json) (xs : JsonList) :
    JsonList.itemsFuel x xs ≤ (Json.renderItems ind x xs).length + 1 := by
  cases xs with
  | nil =>
    have h1 := renderLen_ge ind x
    simp only [JsonList.itemsFuel, Json.renderItems, List.length_append, indSp,
      List.length_replicate, List.length_nil]
    omega
  | cons y ys =>
    have h1 := renderLen_ge ind x
    have h2 := renderItemsLen_ge ind y ys
    simp only [JsonList.itemsFuel, Json.renderItems, List.length_append, indSp,
      List.length_replicate, List.length_cons]
    omega
termination_by sizeOf (JsonList.cons x xs)

/-- The rendering of a non-empty member list is at least one shorter than its
    fuel need. -/
theorem renderFieldsLen_ge (ind : Nat) (k : List Char) (v : Json)
    (fs : JsonFields) :
    JsonFields.fieldsFuel k v fs ≤ (Json.renderFields ind k v fs).length + 1 := by
  cases fs with
  | nil =>
    have h1 := renderLen_ge ind v
    simp only [JsonFields.fieldsFuel, Json.renderFields, List.length_append, indSp,
      List.length_replicate, List.length_nil, List.length_cons]
    omega
  | cons k2 v2 gs =>
    have h1 := renderLen_ge ind v
    have h2 := renderFieldsLen_ge ind k2 v2 gs
    simp only [JsonFields.fieldsFuel, Json.renderFields, List.length_append, indSp,
      List.length_replicate, List.length_cons]
    omega
termination_by sizeOf (JsonFields.cons k v fs)

end

/-- A lone newline is JSON whitespace. -/
theorem nl_ws : ∀ c ∈ ['\n'], jsonWs c = true := by
  intro c hc
  rw [List.mem_singleton.mp hc]
  rfl

/-- A lone blank is JSON whitespace. -/
theorem sp_ws : ∀ c ∈ [' '], jsonWs c = true := by
  intro c hc
  rw [List.mem_singleton.mp hc]
  rfl

/-- A newline followed by indentation is JSON whitespace. -/
theorem nl_ind_ws (j : Nat) : ∀ c ∈ '\n' :: indSp j, jsonWs c = true := by
  intro d hd
  rcases List.mem_cons.mp hd with h | h
  · rw [h]; rfl
  · exact indSp_all_ws j d h

/-- Skipping over a newline plus indentation stops at the next
    non-whitespace character. -/
theorem skipJWs_nl_ind {c : Char} (j : Nat) (z : List Char)
    (hws : jsonWs c = false) :
    skipJWs ('\n' :: (indSp j ++ c :: z)) = c :: z := by
  show skipJWs (('\n' :: indSp j) ++ c :: z) = c :: z
  rw [skipJWs_ws_append (nl_ind_ws j), skipJWs_cons_nonws hws]

/-- The body of a rendered non-empty array: indentation, the first element,
    then a tail block. -/
theorem renderItems_split (ind : Nat) (x : Json) (xs : JsonList) :
    ∃ M, Json.renderItems ind x xs = indSp ind ++ (Json.render ind x ++ M) := by
  cases xs with
  | nil =>
    refine ⟨[], ?_⟩
    simp only [Json.renderItems]
    simp
  | cons y ys =>
    refine ⟨',' :: '\n' :: Json.renderItems ind y ys, ?_⟩
    simp only [Json.renderItems]
    simp [List.append_assoc]

/-- The body of a rendered non-empty object starts, after indentation, with
    the first key's opening quote. -/
theorem renderFields_head (ind : Nat) (k : List Char) (v : Json)
    (fs : JsonFields) :
    ∃ Z, Json.renderFields ind k v fs = indSp ind ++ ('"' :: Z) := by
  cases fs with
  | nil =>
    refine ⟨(escapeStr k ++ ['"']) ++ ':' :: ' ' :: Json.render ind v, ?_⟩
    simp only [Json.renderFields, quoteStr]
    simp [List.append_assoc]
  | cons k2 v2 gs =>
    refine ⟨(escapeStr k ++ ['"']) ++ ':' :: ' ' ::
      (Json.render ind v ++ ',' :: '\n' :: Json.renderFields ind k2 v2 gs), ?_⟩
    simp only [Json.renderFields, quoteStr]
    simp [List.append_assoc]

/-- A non-empty element list needs at least one unit of fuel. -/
theorem itemsFuel_pos (x : Json) (xs : JsonList) : 1 ≤ JsonList.itemsFuel x xs := by
  cases xs <;> (simp only [JsonList.itemsFuel]; omega)

/-- A non-empty member list needs at least one unit of fuel. -/
theorem fieldsFuel_pos (k : List Char) (v : Json) (fs : JsonFields) :
    1 ≤ JsonFields.fieldsFuel k v fs := by
  cases fs <;> (simp only [JsonFields.fieldsFuel]; omega)

/-- Whitespace skipping stops at a comma. -/
theorem skipJWs_comma (X : List Char) : skipJWs (',' :: X) = ',' :: X :=
  skipJWs_cons_nonws (by decide)

/-- Whitespace skipping stops at a colon. -/
theorem skipJWs_colon (X : List Char) : skipJWs (':' :: X) = ':' :: X :=
  skipJWs_cons_nonws (by decide)

/-- Whitespace skipping stops at a quote. -/
theorem skipJWs_quote (X : List Char) : skipJWs ('"' :: X) = '"' :: X :=
  skipJWs_cons_nonws (by decide)

/-- A newline-plus-indentation line ending in a closing square bracket. -/
theorem skipJWs_nl_ind_rb (j : Nat) (z : List Char) :
    skipJWs ('\n' :: (indSp j ++ ']' :: z)) = ']' :: z :=
  skipJWs_nl_ind j z (by decide)

/-- A newline-plus-indentation line ending in a closing brace. -/
theorem skipJWs_nl_ind_rc (j : Nat) (z : List Char) :
    skipJWs ('\n' :: (indSp j ++ '\x7d' :: z)) = '\x7d' :: z :=
  skipJWs_nl_ind j z (by decide)

/-- The value parser ignores one leading blank. -/
theorem parseJ_sp_strip (f : Nat) (X : List Char) :
    parseJ f (' ' :: X) = parseJ f X := parseJ_ws_append f X sp_ws

/-- The element parser ignores one leading newline. -/
theorem parseItems_nl_strip (f : Nat) (X : List Char) :
    parseItems f ('\n' :: X) = parseItems f X := parseItems_ws_append f X nl_ws

/-- The member parser ignores one leading newline. -/
theorem parseFields_nl_strip (f : Nat) (X : List Char) :
    parseFields f ('\n' :: X) = parseFields f X := parseFields_ws_append f X nl_ws

mutual

/-- The parser inverts the pretty-printer on every canonically-numbered value,
    given enough fuel and a remainder that cannot extend a number. -/
theorem rtVal (ind fuel : Nat) (v : Json) (hc : Json.canonicalNums v = true)
    (rest : List Char) (hrest : numDelim rest = true)
    (hfl : Json.fuelNeed v ≤ fuel) :
    parseJ fuel (Json.render ind v ++ rest) = some (v, rest) := by
  obtain ⟨f, rfl⟩ : ∃ f, fuel = f + 1 :=
    ⟨fuel - 1, by have := fuelNeed_pos v; omega⟩
  cases v with
  | null =>
    simp only [Json.render]
    exact parseJ_null_step f rest
  | bool b =>
    cases b with
    | true =>
      simp only [Json.render]
      exact parseJ_true_step f rest
    | false =>
      simp only [Json.render]
      exact parseJ_false_step f rest
  | num m k =>
    have hcEq : reduceDec m k = (m, k) := by
      have h1 : decide (reduceDec m k = (m, k)) = true := by
        simpa [Json.canonicalNums] using hc
      exact of_decide_eq_true h1
    have hred : k = 0 ∨ ¬(m % 10 = 0) := reduced_of_canonical hcEq
    simp only [Json.render, jsNumToString, hcEq]
    by_cases hexp : jsExpNeeded m k = true
    · rw [if_pos hexp]
      have hm0 : ¬ m = 0 := by
        intro h0
        rw [h0] at hexp
        rw [show jsExpNeeded 0 k = false from rfl] at hexp
        exact Bool.false_ne_true hexp
      by_cases hm : m < 0
      · have hdr : expRender m k ++ rest = '-' ::
            ((expDigits (stripTZ (natDigits m.natAbs)) ++
              'e' :: expSuffix (((natDigits m.natAbs).length : Int) - k - 1)) ++ rest) := by
          unfold expRender
          rw [if_pos hm, List.singleton_append, List.cons_append]
        rw [hdr, parseJ_neg_step, ← hdr,
          parseNum_expRender m k hred hm0 rest hrest]
        rfl
      · obtain ⟨c, t, hct, hcd⟩ := expRender_cons m k hm0 hm
        have hdr : expRender m k ++ rest = c :: (t ++ rest) := by
          rw [hct, List.cons_append]
        rw [hdr, parseJ_digit_step f c _ hcd, ← hdr,
          parseNum_expRender m k hred hm0 rest hrest]
        rfl
    · rw [if_neg hexp]
      by_cases hm : m < 0
      · have hdr : decRender m k ++ rest = '-' :: (decRenderN m.natAbs k ++ rest) := by
          unfold decRender
          rw [if_pos hm, List.cons_append]
        rw [hdr, parseJ_neg_step, ← hdr, parseNum_decRender m k hred rest hrest]
        rfl
      · obtain ⟨c, t, hct, hcd⟩ := decRenderN_cons m.natAbs k
        have hdr : decRender m k ++ rest = c :: (t ++ rest) := by
          unfold decRender
          rw [if_neg hm, hct, List.cons_append]
        rw [hdr, parseJ_digit_step f c _ hcd, ← hdr,
          parseNum_decRender m k hred rest hrest]
        rfl
  | str s =>
    simp only [Json.render, quoteStr]
    rw [List.cons_append, parseJ_str_step, List.append_assoc,
      List.singleton_append, parseStrBody_atQuote]
    rfl
  | arr xs =>
    cases xs with
    | nil =>
      simp only [Json.render]
      rfl
    | cons x xs2 =>
      have hc2 : JsonList.canonicalList (JsonList.cons x xs2) = true := by
        simpa [Json.canonicalNums] using hc
      have hfl2 : JsonList.itemsFuel x xs2 ≤ f := by
        simp only [Json.fuelNeed] at hfl
        omega
      simp only [Json.render]
      rw [List.cons_append, List.cons_append, parseJ_arr_step]
      simp only [List.append_assoc, List.cons_append, List.singleton_append,
        List.nil_append]
      obtain ⟨M, hM⟩ := renderItems_split (ind + 2) x xs2
      obtain ⟨c0, t0, hct0, hws0, hne0⟩ := renderHead (ind + 2) x
      have hskip : skipJWs ('\n' :: (Json.renderItems (ind + 2) x xs2 ++
          '\n' :: (indSp ind ++ ']' :: rest))) =
          c0 :: (t0 ++ (M ++ '\n' :: (indSp ind ++ ']' :: rest))) := by
        rw [hM, hct0]
        simp only [List.append_assoc, List.cons_append]
        exact skipJWs_nl_ind (ind + 2) _ hws0
      rw [hskip]
      split
      · rename_i r2 heq
        exact absurd (List.head_eq_of_cons_eq heq) hne0
      · rw [← hskip, parseItems_skipJWs]
        simp only [parseItems_nl_strip, rtItems (ind + 2) ind f x xs2 hc2 hfl2 rest]
  | obj fs =>
    cases fs with
    | nil =>
      simp only [Json.render]
      rfl
    | cons key v2 fs2 =>
      have hc2 : JsonFields.canonicalFields (JsonFields.cons key v2 fs2) = true := by
        simpa [Json.canonicalNums] using hc
      have hfl2 : JsonFields.fieldsFuel key v2 fs2 ≤ f := by
        simp only [Json.fuelNeed] at hfl
        omega
      simp only [Json.render]
      rw [List.cons_append, List.cons_append, parseJ_obj_step]
      simp only [List.append_assoc, List.cons_append, List.singleton_append,
        List.nil_append]
      obtain ⟨Z, hZ⟩ := renderFields_head (ind + 2) key v2 fs2
      have hskip : skipJWs ('\n' :: (Json.renderFields (ind + 2) key v2 fs2 ++
          '\n' :: (indSp ind ++ '\x7d' :: rest))) =
          '"' :: (Z ++ '\n' :: (indSp ind ++ '\x7d' :: rest)) := by
        rw [hZ]
        simp only [List.append_assoc, List.cons_append]
        exact skipJWs_nl_ind (ind + 2) _ (by decide)
      rw [hskip]
      split
      · rename_i r2 heq
        exact absurd (List.head_eq_of_cons_eq heq) (by decide)
      · rw [← hskip, parseFields_skipJWs]
        simp only [parseFields_nl_strip,
          rtFields (ind + 2) ind f key v2 fs2 hc2 hfl2 rest]
termination_by sizeOf v

/-- The element parser inverts the printed body of a non-empty array, up to
    the line holding the closing bracket. -/
theorem rtItems (ind j fuel : Nat) (x : Json) (xs : JsonList)
    (hc : JsonList.canonicalList (JsonList.cons x xs) = true)
    (hfl : JsonList.itemsFuel x xs ≤ fuel) (rest : List Char) :
    parseItems fuel (Json.renderItems ind x xs ++
      '\n' :: (indSp j ++ ']' :: rest)) = some (JsonList.cons x xs, rest) := by
  obtain ⟨f, rfl⟩ : ∃ f, fuel = f + 1 :=
    ⟨fuel - 1, by have := itemsFuel_pos x xs; omega⟩
  have hcx : Json.canonicalNums x = true := by
    simp only [JsonList.canonicalList, Bool.and_eq_true] at hc
    exact hc.1
  cases xs with
  | nil =>
    have hfx : Json.fuelNeed x ≤ f := by
      simp only [JsonList.itemsFuel] at hfl
      omega
    simp only [Json.renderItems, List.append_nil, List.nil_append,
      List.append_assoc]
    rw [parseItems_ws_append (f + 1) _ (indSp_all_ws ind)]
    simp only [parseItems]
    simp only [rtVal ind f x hcx ('\n' :: (indSp j ++ ']' :: rest)) rfl hfx,
      skipJWs_nl_ind_rb]
  | cons y ys =>
    have hfx : Json.fuelNeed x ≤ f := by
      simp only [JsonList.itemsFuel] at hfl
      omega
    have hfy : JsonList.itemsFuel y ys ≤ f := by
      simp only [JsonList.itemsFuel] at hfl
      omega
    have hcy : JsonList.canonicalList (JsonList.cons y ys) = true := by
      simp only [JsonList.canonicalList, Bool.and_eq_true] at hc ⊢
      exact ⟨hc.2.1, hc.2.2⟩
    simp only [Json.renderItems]
    simp only [List.append_assoc, List.cons_append]
    rw [parseItems_ws_append (f + 1) _ (indSp_all_ws ind)]
    simp only [parseItems]
    simp only [rtVal ind f x hcx (',' :: '\n' :: (Json.renderItems ind y ys ++
        '\n' :: (indSp j ++ ']' :: rest))) rfl hfx,
      skipJWs_comma, parseItems_nl_strip, rtItems ind j f y ys hcy hfy rest]
termination_by sizeOf (JsonList.cons x xs)

/-- The member parser inverts the printed body of a non-empty object, up to
    the line holding the closing brace. -/
theorem rtFields (ind j fuel : Nat) (k : List Char) (v : Json) (fs : JsonFields)
    (hc : JsonFields.canonicalFields (JsonFields.cons k v fs) = true)
    (hfl : JsonFields.fieldsFuel k v fs ≤ fuel) (rest : List Char) :
    parseFields fuel (Json.renderFields ind k v fs ++
      '\n' :: (indSp j ++ '\x7d' :: rest)) =
      some (JsonFields.cons k v fs, rest) := by
  obtain ⟨f, rfl⟩ : ∃ f, fuel = f + 1 :=
    ⟨fuel - 1, by have := fieldsFuel_pos k v fs; omega⟩
  have hcv : Json.canonicalNums v = true := by
    simp only [JsonFields.canonicalFields, Bool.and_eq_true] at hc
    exact hc.1
  cases fs with
  | nil =>
    have hfv : Json.fuelNeed v ≤ f := by
      simp only [JsonFields.fieldsFuel] at hfl
      omega
    simp only [Json.renderFields, quoteStr]
    simp only [List.append_assoc, List.cons_append, List.append_nil,
      List.nil_append, List.singleton_append]
    rw [parseFields_ws_append (f + 1) _ (indSp_all_ws ind)]
    simp only [parseFields]
    simp only [skipJWs_quote, parseStrBody_atQuote, skipJWs_colon,
      parseJ_sp_strip,
      rtVal ind f v hcv ('\n' :: (indSp j ++ '\x7d' :: rest)) rfl hfv,
      skipJWs_nl_ind_rc]
  | cons k2 v2 gs =>
    have hfv : Json.fuelNeed v ≤ f := by
      simp only [JsonFields.fieldsFuel] at hfl
      omega
    have hfg : JsonFields.fieldsFuel k2 v2 gs ≤ f := by
      simp only [JsonFields.fieldsFuel] at hfl
      omega
    have hcg : JsonFields.canonicalFields (JsonFields.cons k2 v2 gs) = true := by
      simp only [JsonFields.canonicalFields, Bool.and_eq_true] at hc ⊢
      exact ⟨hc.2.1, hc.2.2⟩
    simp only [Json.renderFields, quoteStr]
    simp only [List.append_assoc, List.cons_append, List.nil_append,
      List.singleton_append]
    rw [parseFields_ws_append (f + 1) _ (indSp_all_ws ind)]
    simp only [parseFields]
    simp only [skipJWs_quote, parseStrBody_atQuote, skipJWs_colon,
      parseJ_sp_strip,
      rtVal ind f v hcv (',' :: '\n' :: (Json.renderFields ind k2 v2 gs ++
        '\n' :: (indSp j ++ '\x7d' :: rest))) rfl hfv,
      skipJWs_comma, parseFields_nl_strip, rtFields ind j f k2 v2 gs hcg hfg rest]
termination_by sizeOf (JsonFields.cons k v fs)

end

/-- Parsing a pretty-printed document recovers the printed value (the
    document's own length bounds the fuel `jsonParse` grants). -/
theorem jsonParse_render (v : Json) (hc : Json.canonicalNums v = true) :
    jsonParse (Json.render 0 v) = some v := by
  unfold jsonParse
  have hfl : Json.fuelNeed v ≤ (Json.render 0 v).length + 1 := by
    have := renderLen_ge 0 v
    omega
  have h1 : parseJ ((Json.render 0 v).length + 1) (Json.render 0 v ++ []) =
      some (v, []) := rtVal 0 _ v hc [] rfl hfl
  rw [List.append_nil] at h1
  simp only [h1]
  rfl

/-- C7: for every valid snapshot S — an object with a `tasks` array member,
    representable as JSON (all numbers in canonical form, as every JS value
    is) — importing the text that exportJSON writes into the blob yields a
    success result whose data is exactly S. -/
theorem export_import_roundtrip (S : Json) (today : List Char)
    (fs : JsonFields) (ts : JsonList)
    (hobj : S = Json.obj fs)
    (htasks : jsGetLast fs ("tasks".data) = some (Json.arr ts))
    (hcanon : Json.canonicalNums S = true) :
    Storage.importJSON (Storage.exportJSON S today).text =
      { success := true, data := some S, error := none } := by
  subst hobj
  have hta : isTasksArray (Json.obj fs) = true := by
    simp only [isTasksArray, getMember, htasks]
  show Storage.importJSON (Json.render 0 (Json.obj fs)) = _
  unfold Storage.importJSON
  simp [jsonParse_render (Json.obj fs) hcanon, jsTruthy, jsTypeofObject, hta]

/-- The round-trip theorem applied to the empty snapshot
    object-with-empty-tasks-array. -/
theorem export_import_roundtrip_witness :
    Storage.importJSON (Storage.exportJSON
      (Json.obj (JsonFields.cons ("tasks".data) (Json.arr JsonList.nil)
        JsonFields.nil)) ("2026-02-03".data)).text =
      { success := true,
        data := some (Json.obj (JsonFields.cons ("tasks".data)
          (Json.arr JsonList.nil) JsonFields.nil)),
        error := none } :=
  export_import_roundtrip _ ("2026-02-03".data)
    (JsonFields.cons ("tasks".data) (Json.arr JsonList.nil) JsonFields.nil)
    JsonList.nil rfl (by decide)
    (by simp [Json.canonicalNums, JsonFields.canonicalFields,
      JsonList.canonicalList])
